import Mathlib

/-!
Verification of the clrs-algos repository (classical sorting and
maximum-subarray algorithms) against its natural-language specification.

The Rust slices are embedded as Lean lists.  Index accesses `src[i]` become
`nthD l i` (reads out of bounds return `default`; every reachable access is
proved in bounds), `src.swap i j` becomes `listSwap`, and sub-slices
`&src[a..b]` become `List.take`/`List.drop`.  Generic `T : PartialOrd`
elements are embedded as a type `α` together with a boolean comparison
`le : α → α → Bool`; the Rust operators `<`, `>`, `>=` are expressed through
`le` as in a total preorder (`a < b` iff `a ≤ b ∧ ¬ b ≤ a`, `a >= b` iff
`le b a`), which is faithful for the totally ordered element types the
specification quantifies over.  Potentially non-terminating recursion
(recursion whose termination depends on run-time values) is embedded with an
explicit fuel parameter; fuel exhaustion models non-termination / stack
overflow of the Rust original, and every claim about a terminating run is
proved with sufficient fuel.
-/

namespace ClrsAlgos

/-- Read element `i` of a list, with `default` out of bounds (Rust would
panic there; all reachable reads are in bounds). -/
def nthD {α : Type} [Inhabited α] : List α → Nat → α
  | [], _ => default
  | x :: _, 0 => x
  | _ :: xs, i + 1 => nthD xs i

/-- Write element `i` of a list; out of range does nothing (Rust would
panic there; all reachable writes are in bounds). -/
def setAt {α : Type} : List α → Nat → α → List α
  | [], _, _ => []
  | _ :: xs, 0, v => v :: xs
  | x :: xs, i + 1, v => x :: setAt xs i v

/-- Embedding of `<[T]>::swap(i, j)`. -/
def listSwap {α : Type} [Inhabited α] (l : List α) (i j : Nat) : List α :=
  setAt (setAt l i (nthD l j)) j (nthD l i)

@[simp] theorem length_setAt {α : Type} (l : List α) (i : Nat) (v : α) :
    (setAt l i v).length = l.length := by
  induction l generalizing i with
  | nil => rfl
  | cons x xs ih => cases i <;> simp [setAt, ih]

@[simp] theorem length_listSwap {α : Type} [Inhabited α] (l : List α) (i j : Nat) :
    (listSwap l i j).length = l.length := by
  simp [listSwap]

theorem nthD_setAt_eq {α : Type} [Inhabited α] (l : List α) (i : Nat) (v : α)
    (h : i < l.length) : nthD (setAt l i v) i = v := by
  induction l generalizing i with
  | nil => simp at h
  | cons x xs ih =>
    cases i with
    | zero => rfl
    | succ n => exact ih n (by simpa using h)

theorem nthD_setAt_ne {α : Type} [Inhabited α] (l : List α) (i k : Nat) (v : α)
    (h : k ≠ i) : nthD (setAt l i v) k = nthD l k := by
  induction l generalizing i k with
  | nil => rfl
  | cons x xs ih =>
    cases i with
    | zero => cases k with
      | zero => exact absurd rfl h
      | succ m => rfl
    | succ n =>
      cases k with
      | zero => rfl
      | succ m => exact ih n m (fun hc => h (by omega))

theorem nthD_listSwap_fst {α : Type} [Inhabited α] (l : List α) (i j : Nat)
    (hi : i < l.length) (hij : i ≠ j) : nthD (listSwap l i j) i = nthD l j := by
  unfold listSwap
  rw [nthD_setAt_ne _ _ _ _ hij, nthD_setAt_eq _ _ _ hi]

theorem nthD_listSwap_snd {α : Type} [Inhabited α] (l : List α) (i j : Nat)
    (hj : j < l.length) : nthD (listSwap l i j) j = nthD l i := by
  unfold listSwap
  rw [nthD_setAt_eq]
  simpa using hj

theorem nthD_listSwap_other {α : Type} [Inhabited α] (l : List α) (i j k : Nat)
    (hki : k ≠ i) (hkj : k ≠ j) : nthD (listSwap l i j) k = nthD l k := by
  unfold listSwap
  rw [nthD_setAt_ne _ _ _ _ hkj, nthD_setAt_ne _ _ _ _ hki]

theorem setAt_self {α : Type} [Inhabited α] (l : List α) (i : Nat) :
    setAt l i (nthD l i) = l := by
  induction l generalizing i with
  | nil => rfl
  | cons x xs ih => cases i <;> simp [setAt, nthD, ih]

/-- Helper for the swap permutation lemma: writing `x` at position `m` and
pulling the old element to the front permutes a `cons`. -/
theorem cons_nthD_setAt_perm {α : Type} [Inhabited α] (xs : List α) (m : Nat) (x : α)
    (h : m < xs.length) : (nthD xs m :: setAt xs m x).Perm (x :: xs) := by
  induction xs generalizing m with
  | nil => simp at h
  | cons y ys ih =>
    cases m with
    | zero => simpa [nthD, setAt] using List.Perm.swap x y ys
    | succ n =>
      have hn : n < ys.length := by simpa using h
      show (nthD ys n :: y :: setAt ys n x).Perm (x :: y :: ys)
      have s1 : (nthD ys n :: y :: setAt ys n x).Perm (y :: nthD ys n :: setAt ys n x) :=
        List.Perm.swap y (nthD ys n) (setAt ys n x)
      have s2 : (y :: nthD ys n :: setAt ys n x).Perm (y :: x :: ys) :=
        List.Perm.cons y (ih n hn)
      have s3 : (y :: x :: ys).Perm (x :: y :: ys) := List.Perm.swap x y ys
      exact (s1.trans s2).trans s3

theorem listSwap_perm {α : Type} [Inhabited α] (l : List α) (i j : Nat)
    (hi : i < l.length) (hj : j < l.length) : (listSwap l i j).Perm l := by
  induction l generalizing i j with
  | nil => simp at hi
  | cons x xs ih =>
    cases i with
    | zero =>
      cases j with
      | zero => simp [listSwap, setAt, nthD, setAt_self]
      | succ m =>
        have hm : m < xs.length := by simpa using hj
        simpa [listSwap, setAt, nthD] using cons_nthD_setAt_perm xs m x hm
    | succ n =>
      cases j with
      | zero =>
        have hn : n < xs.length := by simpa using hi
        simpa [listSwap, setAt, nthD] using cons_nthD_setAt_perm xs n x hn
      | succ m =>
        have hn : n < xs.length := by simpa using hi
        have hm : m < xs.length := by simpa using hj
        simpa [listSwap, setAt, nthD] using List.Perm.cons x (ih n m hn hm)

theorem nthD_take {α : Type} [Inhabited α] (l : List α) (n i : Nat) (h : i < n) :
    nthD (l.take n) i = nthD l i := by
  induction l generalizing n i with
  | nil => simp
  | cons x xs ih =>
    cases n with
    | zero => omega
    | succ m => cases i with
      | zero => rfl
      | succ k => exact ih m k (by omega)

theorem nthD_drop {α : Type} [Inhabited α] (l : List α) (n i : Nat) :
    nthD (l.drop n) i = nthD l (n + i) := by
  induction l generalizing n with
  | nil => cases n <;> rfl
  | cons x xs ih =>
    cases n with
    | zero => simp
    | succ m => simpa [Nat.succ_add] using ih m

theorem mem_take_nthD {α : Type} [Inhabited α] (l : List α) (n : Nat) (x : α)
    (h : x ∈ l.take n) : ∃ i, i < n ∧ i < l.length ∧ nthD l i = x := by
  induction l generalizing n with
  | nil => simp at h
  | cons y ys ih =>
    cases n with
    | zero => simp at h
    | succ m =>
      rcases (by simpa using h : x = y ∨ x ∈ ys.take m) with h1 | h1
      · exact ⟨0, by omega, by simp, h1.symm⟩
      · obtain ⟨i, h2, h3, h4⟩ := ih m h1
        exact ⟨i + 1, by omega, by simpa using h3, h4⟩

theorem mem_nthD {α : Type} [Inhabited α] (l : List α) (x : α)
    (h : x ∈ l) : ∃ i, i < l.length ∧ nthD l i = x := by
  induction l with
  | nil => simp at h
  | cons y ys ih =>
    rcases (by simpa using h : x = y ∨ x ∈ ys) with h1 | h1
    · exact ⟨0, by simp, h1.symm⟩
    · obtain ⟨i, h2, h3⟩ := ih h1
      exact ⟨i + 1, by simpa using h2, h3⟩

theorem mem_drop_nthD {α : Type} [Inhabited α] (l : List α) (n : Nat) (x : α)
    (h : x ∈ l.drop n) : ∃ i, n ≤ i ∧ i < l.length ∧ nthD l i = x := by
  obtain ⟨i, h2, h3⟩ := mem_nthD (l.drop n) x h
  refine ⟨n + i, by omega, ?_, ?_⟩
  · have := l.length_drop n
    omega
  · rw [← nthD_drop l n i, h3]

theorem take_succ_nthD {α : Type} [Inhabited α] (l : List α) (i : Nat) (h : i < l.length) :
    l.take (i + 1) = l.take i ++ [nthD l i] := by
  induction l generalizing i with
  | nil => simp at h
  | cons x xs ih =>
    cases i with
    | zero => rfl
    | succ m => simpa [nthD] using ih m (by simpa using h)

theorem drop_eq_nthD_cons {α : Type} [Inhabited α] (l : List α) (i : Nat) (h : i < l.length) :
    l.drop i = nthD l i :: l.drop (i + 1) := by
  induction l generalizing i with
  | nil => simp at h
  | cons x xs ih =>
    cases i with
    | zero => rfl
    | succ m => simpa [nthD] using ih m (by simpa using h)

theorem take_one_eq {α : Type} [Inhabited α] (l : List α) (h : 0 < l.length) :
    l.take 1 = [nthD l 0] := by
  cases l with
  | nil => simp at h
  | cons x xs => rfl

/-! ## Ordering abstraction

The Rust code is generic over `T : PartialOrd`.  For the totally ordered
element types the claims quantify over, comparisons are a total preorder:
`le` below is `<=`, and `<`, `>`, `>=` are derived from it as in Rust's
`PartialOrd` (`a < b ↔ a ≤ b ∧ ¬ b ≤ a`). -/

/-- Rust `a < b` expressed through the boolean `<=`. -/
def ltb {α : Type} (le : α → α → Bool) (a b : α) : Bool := le a b && !(le b a)

/-- Totality of the comparison: the element type is totally (pre)ordered. -/
def LeTotal {α : Type} (le : α → α → Bool) : Prop :=
  ∀ a b, le a b = true ∨ le b a = true

/-- Transitivity of the comparison. -/
def LeTrans {α : Type} (le : α → α → Bool) : Prop :=
  ∀ a b c, le a b = true → le b c = true → le a c = true

theorem LeTotal.refl {α : Type} {le : α → α → Bool} (h : LeTotal le) (a : α) :
    le a a = true := (h a a).elim id id

/-- The `<=` comparison of `i32`/`Int`, used to instantiate witnesses. -/
def intLe (a b : Int) : Bool := decide (a ≤ b)

theorem intLe_total : LeTotal intLe := by
  intro a b; simp [intLe]; omega

theorem intLe_trans : LeTrans intLe := by
  intro a b c; simp [intLe]; omega

/-! ## Merge sort (src/merge_sort.rs)

`merge` copies elements from the two sorted halves `src[..mid]` and
`src[mid..]` into a scratch buffer, always taking the smaller front element
and preferring the left half on `<=`, then copies the buffer back.  On lists
this is the standard two-way merge of `take mid` and `drop mid`.  The fuel
parameter of `mergeRunsF` bounds the number of loop iterations; the Rust
loop runs exactly `src.len()` times, so fuel `len` is always sufficient. -/

/-- The merge loop of `merge` (src/merge_sort.rs lines 37-55): repeatedly
take the smaller front of the two remaining runs, the left run winning on
equal comparison (`src[i] <= src[j]`). -/
def mergeRunsF {α : Type} (le : α → α → Bool) : Nat → List α → List α → List α
  | 0, xs, ys => xs ++ ys
  | _ + 1, [], ys => ys
  | _ + 1, x :: xs, [] => x :: xs
  | fuel + 1, x :: xs, y :: ys =>
    if le x y then x :: mergeRunsF le fuel xs (y :: ys)
    else y :: mergeRunsF le fuel (x :: xs) ys

/-- Embedding of `merge(src, mid)` (src/merge_sort.rs lines 31-58). -/
def merge {α : Type} (le : α → α → Bool) (src : List α) (mid : Nat) : List α :=
  mergeRunsF le src.length (src.take mid) (src.drop mid)

/-- Embedding of `merge_sort` (src/merge_sort.rs lines 9-29), with fuel
bounding the recursion depth; `merge_sort` below supplies fuel `len`,
which always suffices because every recursive call strictly shrinks the
range. -/
def mergeSortGo {α : Type} [Inhabited α] (le : α → α → Bool) : Nat → List α → List α
  | 0, src => src
  | fuel + 1, src =>
    if src.length ≤ 1 then src
    else if src.length = 2 then
      if ltb le (nthD src 1) (nthD src 0) then listSwap src 0 1 else src
    else
      let q := (src.length + 1) / 2
      merge le (mergeSortGo le fuel (src.take q) ++ mergeSortGo le fuel (src.drop q)) q

/-- Entry point `merge_sort(src)`. -/
def merge_sort {α : Type} [Inhabited α] (le : α → α → Bool) (src : List α) : List α :=
  mergeSortGo le src.length src

theorem mergeRunsF_perm {α : Type} (le : α → α → Bool) :
    ∀ (fuel : Nat) (xs ys : List α), (mergeRunsF le fuel xs ys).Perm (xs ++ ys) := by
  intro fuel
  induction fuel with
  | zero => intro xs ys; exact List.Perm.refl _
  | succ n ih =>
    intro xs ys
    match xs, ys with
    | [], ys => simp [mergeRunsF]
    | x :: xs, [] => simp [mergeRunsF]
    | x :: xs, y :: ys =>
      rw [mergeRunsF]
      by_cases h : le x y = true
      · simpa [h] using List.Perm.cons x (ih xs (y :: ys))
      · simp only [h]
        show (y :: mergeRunsF le n (x :: xs) ys).Perm (x :: (xs ++ y :: ys))
        have h1 : (y :: mergeRunsF le n (x :: xs) ys).Perm (y :: x :: (xs ++ ys)) :=
          List.Perm.cons y (ih (x :: xs) ys)
        have h2 : (y :: x :: (xs ++ ys)).Perm (x :: y :: (xs ++ ys)) :=
          List.Perm.swap x y _
        have h3 : (y :: (xs ++ ys)).Perm (xs ++ y :: ys) := List.perm_middle.symm
        exact (h1.trans h2).trans (List.Perm.cons x h3)

/-- Boolean sortedness as the claims state it: every element is `<=` all
later ones (with transitivity this is equivalent to the adjacent-pairs
formulation, see `SortedB.chain'`). -/
def SortedB {α : Type} (le : α → α → Bool) (l : List α) : Prop :=
  l.Pairwise (fun a b => le a b = true)

theorem SortedB.chain' {α : Type} {le : α → α → Bool} {l : List α}
    (h : SortedB le l) : l.Chain' (fun a b => le a b = true) :=
  List.Pairwise.chain' h

theorem mem_mergeRunsF {α : Type} {le : α → α → Bool} {fuel : Nat} {xs ys : List α}
    {z : α} (h : z ∈ mergeRunsF le fuel xs ys) : z ∈ xs ∨ z ∈ ys := by
  have := (mergeRunsF_perm le fuel xs ys).mem_iff.mp h
  simpa using this

theorem mergeRunsF_sorted {α : Type} {le : α → α → Bool}
    (htot : LeTotal le) (htrans : LeTrans le) :
    ∀ (fuel : Nat) (xs ys : List α), xs.length + ys.length ≤ fuel →
      SortedB le xs → SortedB le ys → SortedB le (mergeRunsF le fuel xs ys) := by
  intro fuel
  induction fuel with
  | zero =>
    intro xs ys hlen hxs hys
    have h1 : xs = [] := by cases xs <;> simp_all
    have h2 : ys = [] := by cases ys <;> simp_all
    simp [mergeRunsF, h1, h2, SortedB]
  | succ n ih =>
    intro xs ys hlen hxs hys
    match xs, ys with
    | [], ys => simpa [mergeRunsF] using hys
    | x :: xs, [] => simpa [mergeRunsF] using hxs
    | x :: xs, y :: ys =>
      rw [mergeRunsF]
      rcases List.pairwise_cons.mp hxs with ⟨hx, hxs'⟩
      rcases List.pairwise_cons.mp hys with ⟨hy, hys'⟩
      by_cases h : le x y = true
      · simp only [h, if_true]
        refine List.pairwise_cons.mpr ⟨?_, ih xs (y :: ys) (by simp at hlen ⊢; omega) hxs' hys⟩
        intro z hz
        rcases mem_mergeRunsF hz with hz1 | hz1
        · exact hx z hz1
        · rcases (by simpa using hz1 : z = y ∨ z ∈ ys) with rfl | hz2
          · exact h
          · exact htrans x y z h (hy z hz2)
      · simp only [h, if_false]
        have hyx : le y x = true := (htot x y).resolve_left (by simpa using h)
        refine List.pairwise_cons.mpr ⟨?_, ih (x :: xs) ys (by simp at hlen ⊢; omega) hxs hys'⟩
        intro z hz
        rcases mem_mergeRunsF hz with hz1 | hz1
        · rcases (by simpa using hz1 : z = x ∨ z ∈ xs) with rfl | hz2
          · exact hyx
          · exact htrans y x z hyx (hx z hz2)
        · exact hy z hz1

/-- Stability of the merge loop: for a predicate `p` picking out one
equivalence class of keys (`p`-elements compare `<=` in both directions),
merging keeps all `p`-elements of the left run before those of the right
run, so filtering commutes with merging.  Needs the left run sorted. -/
theorem mergeRunsF_filter {α : Type} {le : α → α → Bool} {p : α → Bool}
    (htrans : LeTrans le)
    (hcompat : ∀ a b, p a = true → p b = true → le a b = true) :
    ∀ (fuel : Nat) (xs ys : List α), xs.length + ys.length ≤ fuel →
      SortedB le xs →
      (mergeRunsF le fuel xs ys).filter p = xs.filter p ++ ys.filter p := by
  intro fuel
  induction fuel with
  | zero =>
    intro xs ys hlen _
    have h1 : xs = [] := by cases xs <;> simp_all
    have h2 : ys = [] := by cases ys <;> simp_all
    simp [mergeRunsF, h1, h2]
  | succ n ih =>
    intro xs ys hlen hxs
    match xs, ys with
    | [], ys => simp [mergeRunsF]
    | x :: xs, [] => simp [mergeRunsF]
    | x :: xs, y :: ys =>
      rw [mergeRunsF]
      rcases List.pairwise_cons.mp hxs with ⟨hx, hxs'⟩
      by_cases h : le x y = true
      · rw [if_pos h]
        have hmain := ih xs (y :: ys) (by simp at hlen ⊢; omega) hxs'
        conv_lhs => rw [List.filter_cons]
        conv_rhs => rw [List.filter_cons]
        by_cases hpx : p x = true
        · rw [if_pos hpx, if_pos hpx, hmain]
          simp
        · rw [if_neg hpx, if_neg hpx, hmain]
      · rw [if_neg h]
        have hmain := ih (x :: xs) ys (by simp at hlen ⊢; omega) hxs
        conv_lhs => rw [List.filter_cons]
        by_cases hp : p y = true
        · have hnone : (x :: xs).filter p = [] := List.filter_eq_nil_iff.mpr (by
            intro z hz hpz
            rcases (by simpa using hz : z = x ∨ z ∈ xs) with rfl | hz2
            · exact h (hcompat z y hpz hp)
            · exact h (htrans x z y (hx z hz2) (hcompat z y hpz hp)))
          rw [if_pos hp, hmain, hnone, List.filter_cons, if_pos hp]
          simp
        · rw [if_neg hp, hmain]
          congr 1
          rw [List.filter_cons, if_neg hp]

theorem merge_perm {α : Type} (le : α → α → Bool) (l : List α) (q : Nat) :
    (merge le l q).Perm l := by
  unfold merge
  exact (mergeRunsF_perm le l.length (l.take q) (l.drop q)).trans
    (by rw [List.take_append_drop])

theorem sortedB_short {α : Type} (le : α → α → Bool) (l : List α)
    (h : l.length ≤ 1) : SortedB le l := by
  match l with
  | [] => exact List.Pairwise.nil
  | [x] => simp [SortedB]
  | x :: y :: t => simp at h

theorem mergeSortGo_perm {α : Type} [Inhabited α] (le : α → α → Bool) :
    ∀ (fuel : Nat) (src : List α), (mergeSortGo le fuel src).Perm src := by
  intro fuel
  induction fuel with
  | zero => intro src; exact List.Perm.refl _
  | succ n ih =>
    intro src
    rw [mergeSortGo]
    by_cases h1 : src.length ≤ 1
    · rw [if_pos h1]
    · rw [if_neg h1]
      by_cases h2 : src.length = 2
      · rw [if_pos h2]
        by_cases hs : ltb le (nthD src 1) (nthD src 0) = true
        · rw [if_pos hs]
          exact listSwap_perm src 0 1 (by omega) (by omega)
        · rw [if_neg hs]
      · rw [if_neg h2]
        refine (merge_perm le _ _).trans ?_
        refine ((ih (src.take ((src.length + 1) / 2))).append
          (ih (src.drop ((src.length + 1) / 2)))).trans ?_
        rw [List.take_append_drop]

theorem mergeSortGo_length {α : Type} [Inhabited α] (le : α → α → Bool)
    (fuel : Nat) (src : List α) : (mergeSortGo le fuel src).length = src.length :=
  (mergeSortGo_perm le fuel src).length_eq

theorem mergeSortGo_sorted {α : Type} [Inhabited α] {le : α → α → Bool}
    (htot : LeTotal le) (htrans : LeTrans le) :
    ∀ (fuel : Nat) (src : List α), src.length ≤ fuel →
      SortedB le (mergeSortGo le fuel src) := by
  intro fuel
  induction fuel with
  | zero =>
    intro src hlen
    exact sortedB_short le _ (by simpa using Nat.le_trans hlen (by omega))
  | succ n ih =>
    intro src hlen
    rw [mergeSortGo]
    by_cases h1 : src.length ≤ 1
    · rw [if_pos h1]
      exact sortedB_short le src h1
    · rw [if_neg h1]
      by_cases h2 : src.length = 2
      · rw [if_pos h2]
        obtain ⟨a, b, rfl⟩ := List.length_eq_two.mp h2
        by_cases hs : ltb le (nthD [a, b] 1) (nthD [a, b] 0) = true
        · rw [if_pos hs]
          have hba : le b a = true := by
            have := hs
            simp only [nthD, ltb, Bool.and_eq_true] at this
            exact this.1
          show SortedB le [b, a]
          simp [SortedB, hba]
        · rw [if_neg hs]
          have hab : le a b = true := by
            by_cases hab : le a b = true
            · exact hab
            · have hba : le b a = true := (htot a b).resolve_left hab
              exact absurd (by simp [ltb, nthD, hba, hab]) hs
          show SortedB le [a, b]
          simp [SortedB, hab]
      · rw [if_neg h2]
        have hq1 : 1 ≤ (src.length + 1) / 2 := by omega
        have hq2 : (src.length + 1) / 2 ≤ src.length - 1 := by omega
        set q := (src.length + 1) / 2 with hq
        have hA : (mergeSortGo le n (src.take q)).length = q := by
          rw [mergeSortGo_length]
          simp
          omega
        have hB : (mergeSortGo le n (src.drop q)).length = src.length - q := by
          rw [mergeSortGo_length]
          simp
        show SortedB le
          (merge le (mergeSortGo le n (src.take q) ++ mergeSortGo le n (src.drop q)) q)
        unfold merge
        rw [List.take_left' hA, List.drop_left' hA]
        refine mergeRunsF_sorted htot htrans _ _ _ ?_ ?_ ?_
        · simp [hA, hB]
        · exact ih _ (by simp; omega)
        · exact ih _ (by simp; omega)

/-- Stability of `mergeSortGo`: filtering one key class commutes with
sorting, i.e. equal-key elements keep their original relative order. -/
theorem mergeSortGo_filter {α : Type} [Inhabited α] {le : α → α → Bool} {p : α → Bool}
    (htot : LeTotal le) (htrans : LeTrans le)
    (hcompat : ∀ a b, p a = true → p b = true → le a b = true) :
    ∀ (fuel : Nat) (src : List α), src.length ≤ fuel →
      (mergeSortGo le fuel src).filter p = src.filter p := by
  intro fuel
  induction fuel with
  | zero => intro src _; rfl
  | succ n ih =>
    intro src hlen
    rw [mergeSortGo]
    by_cases h1 : src.length ≤ 1
    · rw [if_pos h1]
    · rw [if_neg h1]
      by_cases h2 : src.length = 2
      · rw [if_pos h2]
        obtain ⟨a, b, rfl⟩ := List.length_eq_two.mp h2
        by_cases hs : ltb le (nthD [a, b] 1) (nthD [a, b] 0) = true
        · rw [if_pos hs]
          have hs' : le b a = true ∧ le a b = false := by
            simpa [nthD, ltb, Bool.and_eq_true] using hs
          show List.filter p [b, a] = List.filter p [a, b]
          by_cases hpa : p a = true
          · by_cases hpb : p b = true
            · exact absurd (hcompat a b hpa hpb) (by simp [hs'.2])
            · simp [List.filter, hpa, hpb]
          · by_cases hpb : p b = true
            · simp [List.filter, hpa, hpb]
            · simp [List.filter, hpa, hpb]
        · rw [if_neg hs]
      · rw [if_neg h2]
        have hq1 : 1 ≤ (src.length + 1) / 2 := by omega
        have hq2 : (src.length + 1) / 2 ≤ src.length - 1 := by omega
        set q := (src.length + 1) / 2 with hq
        have hA : (mergeSortGo le n (src.take q)).length = q := by
          rw [mergeSortGo_length]
          simp
          omega
        have hB : (mergeSortGo le n (src.drop q)).length = src.length - q := by
          rw [mergeSortGo_length]
          simp
        show List.filter p
          (merge le (mergeSortGo le n (src.take q) ++ mergeSortGo le n (src.drop q)) q) =
          List.filter p src
        unfold merge
        rw [List.take_left' hA, List.drop_left' hA]
        rw [mergeRunsF_filter htrans hcompat _ _ _ (by simp [hA, hB])
          (mergeSortGo_sorted htot htrans _ _ (by simp; omega))]
        rw [ih _ (by simp; omega), ih _ (by simp; omega)]
        rw [← List.filter_append, List.take_append_drop]

/-! ## Quick sort (src/quick_sort.rs)

The partitioning strategies.  `lomuto_partitioning` (lines 112-125) scans
left to right comparing with the pivot at the last index.
`hoare_partitioning` (lines 163-195) keeps `pivot_idx = 0` throughout (the
code updating it is commented out) and compares through that tracked index;
its left cursor update `less_than_pivot_end = if lte == 0 then lte else lte + 1`
keeps the left cursor at 0 forever. -/

/-- The scan loop of `lomuto_partitioning`: `n` is the number of remaining
iterations (`j` runs over `0..pivot_idx`), `gts` is
`greater_than_pivot_start`. -/
def lomutoGo {α : Type} [Inhabited α] (le : α → α → Bool) (pidx : Nat) :
    Nat → Nat → Nat → List α → Nat × List α
  | 0, _, gts, src => (gts, src)
  | n + 1, j, gts, src =>
    if le (nthD src j) (nthD src pidx) then
      lomutoGo le pidx n (j + 1) (gts + 1) (listSwap src gts j)
    else
      lomutoGo le pidx n (j + 1) gts src

/-- Embedding of `lomuto_partitioning` (src/quick_sort.rs lines 112-125);
returns the split index together with the rearranged slice. -/
def lomuto_partitioning {α : Type} [Inhabited α] (le : α → α → Bool) (src : List α) :
    Nat × List α :=
  let pidx := src.length - 1
  let r := lomutoGo le pidx pidx 0 0 src
  (r.1, listSwap r.2 pidx r.1)

/-- The right-cursor loop of `hoare_partitioning` (lines 168-173): starting
from cursor value `g`, first decrement, then stop as soon as
`src[g] <= src[0]` (the pivot is read through the tracked index 0).
Input 0 would underflow in Rust (a panic); it is unreachable. -/
def hoareG {α : Type} [Inhabited α] (le : α → α → Bool) (src : List α) : Nat → Nat
  | 0 => 0
  | g + 1 => if le (nthD src g) (nthD src 0) then g else hoareG le src g

/-- The left-cursor loop of `hoare_partitioning` (lines 174-179): the update
`lte = if lte == 0 then lte else lte + 1` followed by the test
`src[lte] >= src[0]`.  The fuel bounds the loop; a run entered with
cursor 0 always returns 0. -/
def hoareLAux {α : Type} [Inhabited α] (le : α → α → Bool) (src : List α) :
    Nat → Nat → Nat
  | 0, lte => lte
  | fuel + 1, lte =>
    let lte2 := if lte = 0 then lte else lte + 1
    if le (nthD src 0) (nthD src lte2) then lte2 else hoareLAux le src fuel lte2

/-- The outer loop of `hoare_partitioning` (lines 167-194): run the right
cursor, run the left cursor, swap and continue while `lte < g`, otherwise
return the right cursor.  The fuel dominates the strictly decreasing right
cursor, so fuel `src.len()` always suffices. -/
def hoareOuter {α : Type} [Inhabited α] (le : α → α → Bool) :
    Nat → List α → Nat → Nat → Nat × List α
  | 0, src, _, g => (g, src)
  | fuel + 1, src, lte, g =>
    let g2 := hoareG le src g
    let lte2 := hoareLAux le src src.length lte
    if lte2 < g2 then hoareOuter le fuel (listSwap src lte2 g2) lte2 g2
    else (g2, src)

/-- Embedding of `hoare_partitioning` (src/quick_sort.rs lines 163-195). -/
def hoare_partitioning {α : Type} [Inhabited α] (le : α → α → Bool) (src : List α) :
    Nat × List α :=
  hoareOuter le src.length src 0 src.length

/-- The partitioning strategy selector (src/quick_sort.rs lines 19-36). -/
inductive Partitioner where
  | Lomuto
  | Hoare
  deriving DecidableEq

/-- Embedding of `Partitioner::run` (src/quick_sort.rs lines 73-84):
returns `(end_left, start_right)` plus the rearranged slice. -/
def partitionerRun {α : Type} [Inhabited α] (p : Partitioner) (le : α → α → Bool)
    (src : List α) : Nat × Nat × List α :=
  match p with
  | .Lomuto =>
    let r := lomuto_partitioning le src
    (r.1, r.1 + 1, r.2)
  | .Hoare =>
    let r := hoare_partitioning le src
    (r.1 + 1, r.1 + 1, r.2)

/-- Embedding of `quick_sort` / `quick_sort_impl` (src/quick_sort.rs lines
42-59): lengths 0 and 1 are no-ops, length 2 is a compare-and-swap, longer
slices are partitioned and the two sub-slices `src[..end_left]` and
`src[start_right..]` sorted recursively.  The fuel bounds the recursion
depth; `quick_sort` supplies fuel `len`, which suffices whenever every
recursive call strictly shrinks the slice (fuel exhaustion models the
stack overflow the Rust code would hit otherwise). -/
def quickSortGo {α : Type} [Inhabited α] (p : Partitioner) (le : α → α → Bool) :
    Nat → List α → List α
  | 0, src => src
  | fuel + 1, src =>
    if src.length ≤ 1 then src
    else if src.length = 2 then
      if ltb le (nthD src 1) (nthD src 0) then listSwap src 0 1 else src
    else
      let r := partitionerRun p le src
      quickSortGo p le fuel (r.2.2.take r.1) ++
        (r.2.2.drop r.1).take (r.2.1 - r.1) ++
        quickSortGo p le fuel (r.2.2.drop r.2.1)

/-- Entry point `quick_sort(src, partitioner)`. -/
def quick_sort {α : Type} [Inhabited α] (p : Partitioner) (le : α → α → Bool)
    (src : List α) : List α :=
  quickSortGo p le src.length src

/-- Loop invariant of the Lomuto scan.  Entering with `n` remaining
iterations at position `j` (`j + n = pidx`), with everything before `gts`
`<=` the pivot and everything in `[gts, j)` not `<=` the pivot, the loop
ends with the same shape over the whole range `[0, pidx)` and the pivot
still in place. -/
theorem lomutoGo_spec {α : Type} [Inhabited α] (le : α → α → Bool) (pidx : Nat) :
    ∀ (n j gts : Nat) (src : List α),
      j + n = pidx → gts ≤ j → pidx < src.length →
      (∀ i, i < gts → le (nthD src i) (nthD src pidx) = true) →
      (∀ i, gts ≤ i → i < j → le (nthD src i) (nthD src pidx) = false) →
      (lomutoGo le pidx n j gts src).1 ≤ pidx ∧
      (lomutoGo le pidx n j gts src).2.length = src.length ∧
      nthD (lomutoGo le pidx n j gts src).2 pidx = nthD src pidx ∧
      (∀ i, i < (lomutoGo le pidx n j gts src).1 →
        le (nthD (lomutoGo le pidx n j gts src).2 i) (nthD src pidx) = true) ∧
      (∀ i, (lomutoGo le pidx n j gts src).1 ≤ i → i < pidx →
        le (nthD (lomutoGo le pidx n j gts src).2 i) (nthD src pidx) = false) ∧
      (lomutoGo le pidx n j gts src).2.Perm src := by
  intro n
  induction n with
  | zero =>
    intro j gts src hj hgj hp h1 h2
    have hjp : j = pidx := by omega
    subst hjp
    exact ⟨hgj, rfl, rfl, h1, fun i hi1 hi2 => h2 i hi1 hi2, List.Perm.refl _⟩
  | succ n ih =>
    intro j gts src hj hgj hp h1 h2
    have hjlt : j < pidx := by omega
    rw [lomutoGo]
    by_cases hc : le (nthD src j) (nthD src pidx) = true
    · rw [if_pos hc]
      have hglen : gts < src.length := by omega
      have hjlen : j < src.length := by omega
      have hplen : pidx < src.length := hp
      have hswaplen : (listSwap src gts j).length = src.length := by simp
      have hpiv : nthD (listSwap src gts j) pidx = nthD src pidx := by
        apply nthD_listSwap_other
        · omega
        · omega
      have h1' : ∀ i, i < gts + 1 →
          le (nthD (listSwap src gts j) i) (nthD (listSwap src gts j) pidx) = true := by
        intro i hi
        rw [hpiv]
        by_cases hig : i = gts
        · subst hig
          by_cases higj : i = j
          · subst higj
            rw [nthD_listSwap_snd _ _ _ hjlen]
            exact hc
          · rw [nthD_listSwap_fst _ _ _ hglen higj]
            exact hc
        · have hilt : i < gts := by omega
          rw [nthD_listSwap_other _ _ _ _ hig (by omega)]
          exact h1 i hilt
      have h2' : ∀ i, gts + 1 ≤ i → i < j + 1 →
          le (nthD (listSwap src gts j) i) (nthD (listSwap src gts j) pidx) = false := by
        intro i hi1 hi2
        rw [hpiv]
        by_cases hij : i = j
        · subst hij
          have hgj2 : gts < i := by omega
          rw [nthD_listSwap_snd _ _ _ hjlen]
          exact h2 gts (le_refl _) (by omega)
        · have : i < j := by omega
          rw [nthD_listSwap_other _ _ _ _ (by omega) hij]
          exact h2 i (by omega) this
      obtain ⟨c1, c2, c3, c4, c5, c6⟩ :=
        ih (j + 1) (gts + 1) (listSwap src gts j) (by omega) (by omega)
          (by omega) h1' h2'
      refine ⟨c1, by rw [c2, hswaplen], by rw [c3, hpiv], ?_, ?_, ?_⟩
      · intro i hi
        rw [← hpiv]
        exact c4 i hi
      · intro i hi1 hi2
        rw [← hpiv]
        exact c5 i hi1 hi2
      · exact c6.trans (listSwap_perm src gts j hglen hjlen)
    · rw [if_neg hc]
      have h2' : ∀ i, gts ≤ i → i < j + 1 →
          le (nthD src i) (nthD src pidx) = false := by
        intro i hi1 hi2
        by_cases hij : i = j
        · subst hij
          exact Bool.not_eq_true _ ▸ (by simpa using hc)
        · exact h2 i hi1 (by omega)
      exact ih (j + 1) gts src (by omega) (by omega) hp h1 h2'

/-- Full specification of `lomuto_partitioning` on a non-empty slice:
the returned index `q` is in range, carries the original pivot value
(the last element), everything left of `q` is `<=` it, everything right
of `q` is not `<=` it, and the slice is permuted. -/
theorem lomuto_spec {α : Type} [Inhabited α] (le : α → α → Bool) (src : List α)
    (h : 1 ≤ src.length) :
    (lomuto_partitioning le src).1 < src.length ∧
    (lomuto_partitioning le src).2.length = src.length ∧
    nthD (lomuto_partitioning le src).2 (lomuto_partitioning le src).1 =
      nthD src (src.length - 1) ∧
    (∀ i, i < (lomuto_partitioning le src).1 →
      le (nthD (lomuto_partitioning le src).2 i) (nthD src (src.length - 1)) = true) ∧
    (∀ i, (lomuto_partitioning le src).1 < i → i < src.length →
      le (nthD (lomuto_partitioning le src).2 i) (nthD src (src.length - 1)) = false) ∧
    (lomuto_partitioning le src).2.Perm src := by
  have hdef : lomuto_partitioning le src =
      ((lomutoGo le (src.length - 1) (src.length - 1) 0 0 src).1,
        listSwap (lomutoGo le (src.length - 1) (src.length - 1) 0 0 src).2
          (src.length - 1) (lomutoGo le (src.length - 1) (src.length - 1) 0 0 src).1) := rfl
  rw [hdef]
  set pidx := src.length - 1 with hpidx
  have hp : pidx < src.length := by omega
  obtain ⟨c1, c2, c3, c4, c5, c6⟩ :=
    lomutoGo_spec le pidx pidx 0 0 src (by omega) (by omega) hp
      (by intro i hi; omega) (by intro i hi1 hi2; omega)
  set r := lomutoGo le pidx pidx 0 0 src with hr
  have hq : r.1 < src.length := by omega
  have hqlen : r.1 < r.2.length := by omega
  have hplen : pidx < r.2.length := by omega
  constructor
  · exact hq
  refine ⟨by simpa using c2, ?_, ?_, ?_, ?_⟩
  · rw [nthD_listSwap_snd _ _ _ hqlen]
    exact c3
  · intro i hi
    by_cases hip : i = pidx
    · omega
    · rw [nthD_listSwap_other _ _ _ _ hip (by omega)]
      exact c4 i hi
  · intro i hi1 hi2
    by_cases hip : i = pidx
    · subst hip
      have hqp : r.1 < pidx := by omega
      by_cases hqq : pidx = r.1
      · omega
      · rw [nthD_listSwap_fst _ _ _ hplen hqq]
        exact c5 r.1 (le_refl _) hqp
    · have hipd : i < pidx := by omega
      rw [nthD_listSwap_other _ _ _ _ hip (by omega)]
      exact c5 i (by omega) hipd
  · exact (listSwap_perm r.2 pidx r.1 hplen hqlen).trans c6

theorem hoareG_le {α : Type} [Inhabited α] (le : α → α → Bool) (src : List α) :
    ∀ g, hoareG le src g ≤ g - 1 := by
  intro g
  induction g with
  | zero => simp [hoareG]
  | succ n ih =>
    rw [hoareG]
    by_cases hc : le (nthD src n) (nthD src 0) = true
    · rw [if_pos hc]; omega
    · rw [if_neg hc]; omega

/-- Elements scanned past by the right-cursor loop are not `<=` the pivot. -/
theorem hoareG_scan {α : Type} [Inhabited α] (le : α → α → Bool) (src : List α) :
    ∀ g i, hoareG le src g < i → i < g → le (nthD src i) (nthD src 0) = false := by
  intro g
  induction g with
  | zero => intro i h1 h2; omega
  | succ n ih =>
    intro i h1 h2
    rw [hoareG] at h1
    by_cases hc : le (nthD src n) (nthD src 0) = true
    · rw [if_pos hc] at h1
      omega
    · rw [if_neg hc] at h1
      by_cases hin : i = n
      · subst hin
        exact Bool.not_eq_true _ ▸ (by simpa using hc)
      · exact ih i h1 (by omega)

/-- Where the right cursor stops, the element is `<=` the pivot (for a
total comparison; the loop can only exit on its break condition, except at
cursor 0 where the test `src[0] <= src[0]` holds by totality anyway). -/
theorem hoareG_stop {α : Type} [Inhabited α] {le : α → α → Bool} (htot : LeTotal le)
    (src : List α) : ∀ g, le (nthD src (hoareG le src g)) (nthD src 0) = true := by
  intro g
  induction g with
  | zero => simpa [hoareG] using htot.refl (nthD src 0)
  | succ n ih =>
    rw [hoareG]
    by_cases hc : le (nthD src n) (nthD src 0) = true
    · rw [if_pos hc]; exact hc
    · rw [if_neg hc]; exact ih

/-- The left-cursor loop never moves off position 0. -/
theorem hoareLAux_zero {α : Type} [Inhabited α] (le : α → α → Bool) (src : List α) :
    ∀ fuel, hoareLAux le src fuel 0 = 0 := by
  intro fuel
  induction fuel with
  | zero => rfl
  | succ n ih =>
    rw [hoareLAux]
    have hi0 : (if (0 : Nat) = 0 then (0 : Nat) else 0 + 1) = 0 := rfl
    rw [hi0]
    by_cases hc : le (nthD src 0) (nthD src 0) = true
    · rw [if_pos hc]
    · rw [if_neg hc]
      exact ih

/-- Main invariant of the Hoare outer loop: starting with left cursor 0 and
enough fuel, the loop always returns split index 0, permutes the slice,
and leaves a minimum element at index 0. -/
theorem hoareOuter_spec {α : Type} [Inhabited α] {le : α → α → Bool}
    (htot : LeTotal le) (htrans : LeTrans le) :
    ∀ (fuel g : Nat) (src : List α), g ≤ fuel → g ≤ src.length →
      (∀ i, g ≤ i → i < src.length → le (nthD src 0) (nthD src i) = true) →
      (hoareOuter le fuel src 0 g).1 = 0 ∧
      (hoareOuter le fuel src 0 g).2.length = src.length ∧
      (hoareOuter le fuel src 0 g).2.Perm src ∧
      (∀ i, i < src.length →
        le (nthD (hoareOuter le fuel src 0 g).2 0)
          (nthD (hoareOuter le fuel src 0 g).2 i) = true) := by
  intro fuel
  induction fuel with
  | zero =>
    intro g src hf hg hinv
    have hg0 : g = 0 := by omega
    subst hg0
    exact ⟨rfl, rfl, List.Perm.refl _, fun i hi => hinv i (by omega) hi⟩
  | succ n ih =>
    intro g src hf hg hinv
    rw [hoareOuter]
    set g2 := hoareG le src g with hg2
    have hlte : hoareLAux le src src.length 0 = 0 := hoareLAux_zero le src src.length
    rw [hlte]
    have hg2le : g2 ≤ g - 1 := hoareG_le le src g
    have hstop : le (nthD src g2) (nthD src 0) = true := hoareG_stop htot src g
    have hscan : ∀ i, g2 < i → i < g → le (nthD src i) (nthD src 0) = false :=
      fun i h1 h2 => hoareG_scan le src g i h1 h2
    by_cases hlt : 0 < g2
    · rw [if_pos hlt]
      have hg2len : g2 < src.length := by omega
      have h0len : 0 < src.length := by omega
      set src2 := listSwap src 0 g2 with hsrc2
      have hlen2 : src2.length = src.length := by simp [hsrc2]
      have hnth0 : nthD src2 0 = nthD src g2 :=
        nthD_listSwap_fst src 0 g2 h0len (by omega)
      have hnthg2 : nthD src2 g2 = nthD src 0 :=
        nthD_listSwap_snd src 0 g2 hg2len
      have hinv2 : ∀ i, g2 ≤ i → i < src2.length → le (nthD src2 0) (nthD src2 i) = true := by
        intro i hi1 hi2
        rw [hnth0]
        by_cases hig : i = g2
        · subst hig
          rw [hnthg2]
          exact hstop
        · rw [nthD_listSwap_other src 0 g2 i (by omega) hig]
          by_cases higr : i < g
          · have := hscan i (by omega) higr
            have hle2 : le (nthD src 0) (nthD src i) = true :=
              (htot (nthD src 0) (nthD src i)).resolve_right (by
                intro hcon
                rw [this] at hcon
                exact Bool.false_ne_true hcon)
            exact htrans _ _ _ hstop hle2
          · have := hinv i (by omega) (by omega)
            exact htrans _ _ _ hstop this
      obtain ⟨c1, c2, c3, c4⟩ := ih g2 src2 (by omega) (by omega) hinv2
      refine ⟨c1, by rw [c2, hlen2], ?_, ?_⟩
      · exact c3.trans (listSwap_perm src 0 g2 h0len hg2len)
      · intro i hi
        exact c4 i (by omega)
    · rw [if_neg hlt]
      have hg20 : g2 = 0 := by omega
      refine ⟨hg20, rfl, List.Perm.refl _, ?_⟩
      intro i hi
      rw [hg20] at hscan hstop ⊢
      by_cases hi0 : i = 0
      · subst hi0
        exact htot.refl _
      · by_cases hig : i < g
        · have := hscan i (by omega) hig
          exact (htot (nthD src 0) (nthD src i)).resolve_right (by
            intro hcon
            rw [this] at hcon
            exact Bool.false_ne_true hcon)
        · exact hinv i (by omega) hi

/-- Specification of `hoare_partitioning` on a non-empty slice: it always
returns split index 0 with a minimum element swapped to position 0. -/
theorem hoare_spec {α : Type} [Inhabited α] {le : α → α → Bool}
    (htot : LeTotal le) (htrans : LeTrans le) (src : List α) :
    (hoare_partitioning le src).1 = 0 ∧
    (hoare_partitioning le src).2.length = src.length ∧
    (hoare_partitioning le src).2.Perm src ∧
    (∀ i, i < src.length →
      le (nthD (hoare_partitioning le src).2 0)
        (nthD (hoare_partitioning le src).2 i) = true) := by
  have := hoareOuter_spec htot htrans src.length src.length src (le_refl _) (le_refl _)
    (fun i h1 h2 => by omega)
  exact this

/-- The Hoare outer loop unconditionally returns split index 0 and a
permutation of its input (no ordering assumptions needed). -/
theorem hoareOuter_basic {α : Type} [Inhabited α] (le : α → α → Bool) :
    ∀ (fuel g : Nat) (src : List α), g ≤ fuel → g ≤ src.length →
      (hoareOuter le fuel src 0 g).1 = 0 ∧
      (hoareOuter le fuel src 0 g).2.length = src.length ∧
      (hoareOuter le fuel src 0 g).2.Perm src := by
  intro fuel
  induction fuel with
  | zero =>
    intro g src hf hg
    rw [hoareOuter]
    exact ⟨by omega, rfl, List.Perm.refl _⟩
  | succ n ih =>
    intro g src hf hg
    rw [hoareOuter]
    set g2 := hoareG le src g with hg2
    rw [hoareLAux_zero le src src.length]
    have hg2le : g2 ≤ g - 1 := hoareG_le le src g
    by_cases hlt : 0 < g2
    · rw [if_pos hlt]
      have hg2len : g2 < src.length := by omega
      have h0len : 0 < src.length := by omega
      obtain ⟨c1, c2, c3⟩ := ih g2 (listSwap src 0 g2) (by omega) (by simp; omega)
      refine ⟨c1, by rw [c2]; simp, c3.trans (listSwap_perm src 0 g2 h0len hg2len)⟩
    · rw [if_neg hlt]
      exact ⟨by omega, rfl, List.Perm.refl _⟩

theorem quickSortGo_singleton {α : Type} [Inhabited α] (p : Partitioner)
    (le : α → α → Bool) (fuel : Nat) (x : α) : quickSortGo p le fuel [x] = [x] := by
  cases fuel with
  | zero => rfl
  | succ n =>
    rw [quickSortGo]
    rw [if_pos (by simp)]

/-- Facts about one partitioning call needed by the quick-sort driver:
`end_left <= start_right`, and the slice is permuted. -/
theorem partitionerRun_basic {α : Type} [Inhabited α] (p : Partitioner)
    (le : α → α → Bool) (src : List α) (h : 1 ≤ src.length) :
    (partitionerRun p le src).1 ≤ (partitionerRun p le src).2.1 ∧
    (partitionerRun p le src).2.2.length = src.length ∧
    (partitionerRun p le src).2.2.Perm src := by
  cases p with
  | Lomuto =>
    obtain ⟨c1, c2, c3, c4, c5, c6⟩ := lomuto_spec le src h
    exact ⟨by simp [partitionerRun], by simpa [partitionerRun] using c2,
      by simpa [partitionerRun] using c6⟩
  | Hoare =>
    obtain ⟨c1, c2, c3⟩ := hoareOuter_basic le src.length src.length src (le_refl _) (le_refl _)
    exact ⟨by simp [partitionerRun], by simpa [partitionerRun, hoare_partitioning] using c2,
      by simpa [partitionerRun, hoare_partitioning] using c3⟩

/-- The three-way split of the partitioned slice reassembles to it. -/
theorem take_mid_drop {α : Type} (l : List α) (el sr : Nat) (h : el ≤ sr) :
    l.take el ++ ((l.drop el).take (sr - el) ++ l.drop sr) = l := by
  have h1 : (l.drop el).drop (sr - el) = l.drop sr := by
    rw [List.drop_drop]
    congr 1
    omega
  conv_rhs => rw [← List.take_append_drop el l]
  congr 1
  rw [← h1, List.take_append_drop]

/-- Quick sort permutes its input, for either strategy and any fuel. -/
theorem quickSortGo_perm {α : Type} [Inhabited α] (p : Partitioner) (le : α → α → Bool) :
    ∀ (fuel : Nat) (src : List α), (quickSortGo p le fuel src).Perm src := by
  intro fuel
  induction fuel with
  | zero => intro src; exact List.Perm.refl _
  | succ n ih =>
    intro src
    rw [quickSortGo]
    by_cases h1 : src.length ≤ 1
    · rw [if_pos h1]
    · rw [if_neg h1]
      by_cases h2 : src.length = 2
      · rw [if_pos h2]
        by_cases hs : ltb le (nthD src 1) (nthD src 0) = true
        · rw [if_pos hs]
          exact listSwap_perm src 0 1 (by omega) (by omega)
        · rw [if_neg hs]
      · rw [if_neg h2]
        dsimp only
        obtain ⟨b1, b2, b3⟩ := partitionerRun_basic p le src (by omega)
        set r := partitionerRun p le src with hr
        rw [List.append_assoc]
        refine ((ih (r.2.2.take r.1)).append
          ((List.Perm.refl ((r.2.2.drop r.1).take (r.2.1 - r.1))).append
            (ih (r.2.2.drop r.2.1)))).trans ?_
        rw [take_mid_drop r.2.2 r.1 r.2.1 b1]
        exact b3

/-- Quick sort sorts, for either strategy, given enough fuel (the driver
passes fuel `len`, sufficient because with these partitioners every
recursive call strictly shrinks the slice). -/
theorem quickSortGo_sorted {α : Type} [Inhabited α] {le : α → α → Bool}
    (htot : LeTotal le) (htrans : LeTrans le) (p : Partitioner) :
    ∀ (fuel : Nat) (src : List α), src.length ≤ fuel →
      SortedB le (quickSortGo p le fuel src) := by
  intro fuel
  induction fuel with
  | zero =>
    intro src hlen
    show SortedB le src
    exact sortedB_short le src (by omega)
  | succ n ih =>
    intro src hlen
    rw [quickSortGo]
    by_cases h1 : src.length ≤ 1
    · rw [if_pos h1]
      exact sortedB_short le src h1
    · rw [if_neg h1]
      by_cases h2 : src.length = 2
      · rw [if_pos h2]
        obtain ⟨a, b, rfl⟩ := List.length_eq_two.mp h2
        by_cases hs : ltb le (nthD [a, b] 1) (nthD [a, b] 0) = true
        · rw [if_pos hs]
          have hba : le b a = true := by
            have := hs
            simp only [nthD, ltb, Bool.and_eq_true] at this
            exact this.1
          show SortedB le [b, a]
          simp [SortedB, hba]
        · rw [if_neg hs]
          have hab : le a b = true := by
            by_cases hab : le a b = true
            · exact hab
            · have hba : le b a = true := (htot a b).resolve_left hab
              exact absurd (by simp [ltb, nthD, hba, hab]) hs
          show SortedB le [a, b]
          simp [SortedB, hab]
      · rw [if_neg h2]
        dsimp only
        cases p with
        | Lomuto =>
          obtain ⟨c1, c2, c3, c4, c5, c6⟩ := lomuto_spec le src (by omega)
          have hrun : partitionerRun Partitioner.Lomuto le src =
              ((lomuto_partitioning le src).1, (lomuto_partitioning le src).1 + 1,
                (lomuto_partitioning le src).2) := rfl
          rw [hrun]
          set q := (lomuto_partitioning le src).1 with hq
          set a2 := (lomuto_partitioning le src).2 with ha2
          set pv := nthD src (src.length - 1) with hpv
          have hmid : (a2.drop q).take (q + 1 - q) = [nthD a2 q] := by
            have h11 : q + 1 - q = 1 := by omega
            rw [h11, drop_eq_nthD_cons a2 q (by omega)]
            rfl
          show SortedB le (quickSortGo Partitioner.Lomuto le n (a2.take q) ++
            (a2.drop q).take (q + 1 - q) ++ quickSortGo Partitioner.Lomuto le n (a2.drop (q + 1)))
          rw [hmid, List.append_assoc]
          have hmemL : ∀ x, x ∈ quickSortGo Partitioner.Lomuto le n (a2.take q) →
              le x pv = true := by
            intro x hx
            have hx2 : x ∈ a2.take q := (quickSortGo_perm _ le n _).mem_iff.mp hx
            obtain ⟨i, hi1, hi2, hi3⟩ := mem_take_nthD a2 q x hx2
            rw [← hi3]
            exact c4 i hi1
          have hmemR : ∀ x, x ∈ quickSortGo Partitioner.Lomuto le n (a2.drop (q + 1)) →
              le pv x = true := by
            intro x hx
            have hx2 : x ∈ a2.drop (q + 1) := (quickSortGo_perm _ le n _).mem_iff.mp hx
            obtain ⟨i, hi1, hi2, hi3⟩ := mem_drop_nthD a2 (q + 1) x hx2
            have hfalse : le (nthD a2 i) pv = false := c5 i (by omega) (by omega)
            have := (htot pv (nthD a2 i)).resolve_left
            rw [← hi3]
            rcases htot pv (nthD a2 i) with hgood | hbad
            · exact hgood
            · rw [hfalse] at hbad
              exact absurd hbad Bool.false_ne_true
          refine List.pairwise_append.mpr ⟨?_, ?_, ?_⟩
          · exact ih _ (by simp [c2]; omega)
          · refine List.pairwise_append.mpr ⟨by simp [SortedB], ?_, ?_⟩
            · exact ih _ (by simp [c2]; omega)
            · intro a ha b hb
              have ha2' : a = pv := by
                rw [List.mem_singleton] at ha
                rw [ha, c3]
              rw [ha2']
              exact hmemR b hb
          · intro a ha b hb
            have haq : le a pv = true := hmemL a ha
            rcases List.mem_append.mp hb with hb1 | hb1
            · have hb2 : b = pv := by
                rw [List.mem_singleton] at hb1
                rw [hb1, c3]
              rw [hb2]
              exact haq
            · exact htrans a pv b haq (hmemR b hb1)
        | Hoare =>
          obtain ⟨d1, d2, d3, d4⟩ := hoare_spec htot htrans src
          have hrun : partitionerRun Partitioner.Hoare le src =
              ((hoare_partitioning le src).1 + 1, (hoare_partitioning le src).1 + 1,
                (hoare_partitioning le src).2) := rfl
          rw [hrun, d1]
          set a2 := (hoare_partitioning le src).2 with ha2
          have htake : a2.take 1 = [nthD a2 0] := take_one_eq a2 (by omega)
          show SortedB le (quickSortGo Partitioner.Hoare le n (a2.take 1) ++
            [] ++ quickSortGo Partitioner.Hoare le n (a2.drop 1))
          rw [List.append_nil, htake, quickSortGo_singleton]
          show SortedB le (nthD a2 0 :: quickSortGo Partitioner.Hoare le n (a2.drop 1))
          refine List.pairwise_cons.mpr ⟨?_, ?_⟩
          · intro z hz
            have hz2 : z ∈ a2.drop 1 := (quickSortGo_perm _ le n _).mem_iff.mp hz
            obtain ⟨i, hi1, hi2, hi3⟩ := mem_drop_nthD a2 1 z hz2
            rw [← hi3]
            exact d4 i (by omega)
          · exact ih _ (by simp [d2]; omega)

/-! ## Spec-modelled value-based Hoare partitioning (for claim C2)

The specification (section 4.2 and its note in section 9) describes a Hoare
partitioning that captures the pivot *value* (first element) before
scanning; the source file implements the index-tracked variant instead.
The following definitions are modelled from the spec, to be compared with
`hoare_partitioning` above. -/

/-- Modelled from the spec: the right cursor of value-based Hoare
partitioning advances leftward while its element is `> pivot_value`. -/
def hoareSpecG {α : Type} [Inhabited α] (le : α → α → Bool) (pv : α) (src : List α) :
    Nat → Nat
  | 0 => 0
  | g + 1 => if le (nthD src g) pv then g else hoareSpecG le pv src g

/-- Modelled from the spec: the left cursor advances rightward while its
element is `< pivot_value` (it starts before the range; `none` means it has
not yet entered). -/
def hoareSpecL {α : Type} [Inhabited α] (le : α → α → Bool) (pv : α) (src : List α) :
    Nat → Option Nat → Nat
  | 0, lopt => (match lopt with | none => 0 | some k => k + 1)
  | fuel + 1, lopt =>
    let l := (match lopt with | none => 0 | some k => k + 1)
    if le pv (nthD src l) then l else hoareSpecL le pv src fuel (some l)

/-- Modelled from the spec: the outer loop of value-based Hoare
partitioning; when the cursors stop, swap and continue, unless they met or
crossed, in which case return the right cursor. -/
def hoareSpecOuter {α : Type} [Inhabited α] (le : α → α → Bool) (pv : α) :
    Nat → List α → Option Nat → Nat → Nat × List α
  | 0, src, _, g => (g, src)
  | fuel + 1, src, lopt, g =>
    let g2 := hoareSpecG le pv src g
    let l2 := hoareSpecL le pv src src.length lopt
    if l2 < g2 then hoareSpecOuter le pv fuel (listSwap src l2 g2) (some l2) g2
    else (g2, src)

/-- Modelled from the spec: value-based Hoare partitioning, comparing
against the captured first element, not through a tracked index. -/
def hoare_partitioning_spec {α : Type} [Inhabited α] (le : α → α → Bool)
    (src : List α) : Nat × List α :=
  hoareSpecOuter le (nthD src 0) src.length src none src.length

/-! ## Claim theorems for the sorting component -/

/-- C1: for every finite sequence over a totally ordered element type,
`quick_sort` (with either the Lomuto or the Hoare strategy) and
`merge_sort` leave the sequence sorted ascending (every adjacent pair
satisfies `O[i] <= O[i+1]`) and the result is a permutation of the
input. -/
theorem C1_sorts_sort_and_permute {α : Type} [Inhabited α] (le : α → α → Bool)
    (htot : LeTotal le) (htrans : LeTrans le) (src : List α) :
    (quick_sort Partitioner.Lomuto le src).Chain' (fun a b => le a b = true) ∧
    (quick_sort Partitioner.Lomuto le src).Perm src ∧
    (quick_sort Partitioner.Hoare le src).Chain' (fun a b => le a b = true) ∧
    (quick_sort Partitioner.Hoare le src).Perm src ∧
    (merge_sort le src).Chain' (fun a b => le a b = true) ∧
    (merge_sort le src).Perm src := by
  refine ⟨?_, ?_, ?_, ?_, ?_, ?_⟩
  · exact (quickSortGo_sorted htot htrans Partitioner.Lomuto src.length src (le_refl _)).chain'
  · exact quickSortGo_perm Partitioner.Lomuto le src.length src
  · exact (quickSortGo_sorted htot htrans Partitioner.Hoare src.length src (le_refl _)).chain'
  · exact quickSortGo_perm Partitioner.Hoare le src.length src
  · exact (mergeSortGo_sorted htot htrans src.length src (le_refl _)).chain'
  · exact mergeSortGo_perm le src.length src

/-- Witness for C1 at a concrete input. -/
theorem C1_sorts_sort_and_permute_witness :
    (quick_sort Partitioner.Lomuto intLe [3, 1, 2]).Chain' (fun a b => intLe a b = true) ∧
    (quick_sort Partitioner.Lomuto intLe [3, 1, 2]).Perm [3, 1, 2] ∧
    (quick_sort Partitioner.Hoare intLe [3, 1, 2]).Chain' (fun a b => intLe a b = true) ∧
    (quick_sort Partitioner.Hoare intLe [3, 1, 2]).Perm [3, 1, 2] ∧
    (merge_sort intLe [3, 1, 2]).Chain' (fun a b => intLe a b = true) ∧
    (merge_sort intLe [3, 1, 2]).Perm [3, 1, 2] :=
  C1_sorts_sort_and_permute intLe intLe_total intLe_trans [3, 1, 2]

/-- C3: on every slice of length at least 3 over a totally ordered type,
`lomuto_partitioning` returns an index `q` holding the pivot value (the
value originally at the last position), with every element left of `q`
`<=` that pivot value and every element right of `q` strictly greater. -/
theorem C3_lomuto_partition_invariant {α : Type} [Inhabited α] (le : α → α → Bool)
    (htot : LeTotal le) (src : List α) (h : 3 ≤ src.length) :
    (lomuto_partitioning le src).1 < src.length ∧
    nthD (lomuto_partitioning le src).2 (lomuto_partitioning le src).1 =
      nthD src (src.length - 1) ∧
    (∀ i, i < (lomuto_partitioning le src).1 →
      le (nthD (lomuto_partitioning le src).2 i)
        (nthD (lomuto_partitioning le src).2 (lomuto_partitioning le src).1) = true) ∧
    (∀ i, (lomuto_partitioning le src).1 < i → i < src.length →
      ltb le (nthD (lomuto_partitioning le src).2 (lomuto_partitioning le src).1)
        (nthD (lomuto_partitioning le src).2 i) = true) := by
  obtain ⟨c1, c2, c3, c4, c5, c6⟩ := lomuto_spec le src (by omega)
  refine ⟨c1, c3, ?_, ?_⟩
  · intro i hi
    rw [c3]
    exact c4 i hi
  · intro i hi1 hi2
    rw [c3]
    have hfalse : le (nthD (lomuto_partitioning le src).2 i) (nthD src (src.length - 1)) =
        false := c5 i hi1 hi2
    have hle : le (nthD src (src.length - 1))
        (nthD (lomuto_partitioning le src).2 i) = true := by
      rcases htot (nthD src (src.length - 1)) (nthD (lomuto_partitioning le src).2 i)
        with hgood | hbad
      · exact hgood
      · rw [hfalse] at hbad
        exact absurd hbad Bool.false_ne_true
    simp [ltb, hle, hfalse]

/-- Witness for C3 at a concrete input. -/
theorem C3_lomuto_partition_invariant_witness :
    (lomuto_partitioning intLe [5, 9, 1]).1 < 3 ∧
    nthD (lomuto_partitioning intLe [5, 9, 1]).2 (lomuto_partitioning intLe [5, 9, 1]).1 =
      nthD [5, 9, 1] 2 ∧
    (∀ i, i < (lomuto_partitioning intLe [5, 9, 1]).1 →
      intLe (nthD (lomuto_partitioning intLe [5, 9, 1]).2 i)
        (nthD (lomuto_partitioning intLe [5, 9, 1]).2
          (lomuto_partitioning intLe [5, 9, 1]).1) = true) ∧
    (∀ i, (lomuto_partitioning intLe [5, 9, 1]).1 < i → i < 3 →
      ltb intLe (nthD (lomuto_partitioning intLe [5, 9, 1]).2
          (lomuto_partitioning intLe [5, 9, 1]).1)
        (nthD (lomuto_partitioning intLe [5, 9, 1]).2 i) = true) :=
  C3_lomuto_partition_invariant intLe intLe_total [5, 9, 1] (by decide)

/-- C9: on every non-empty slice over a totally ordered type,
`hoare_partitioning` terminates (it is a total function here; the
decreasing right cursor dominates the fuel) and always returns 0, leaving
a minimum element at index 0; consequently `Partitioner::run` with the
Hoare strategy always yields the sub-ranges `[0,1)` and `[1,len)`. -/
theorem C9_hoare_returns_zero {α : Type} [Inhabited α] (le : α → α → Bool)
    (htot : LeTotal le) (htrans : LeTrans le) (src : List α) (h : 1 ≤ src.length) :
    (hoare_partitioning le src).1 = 0 ∧
    (∀ i, i < src.length →
      le (nthD (hoare_partitioning le src).2 0)
        (nthD (hoare_partitioning le src).2 i) = true) ∧
    partitionerRun Partitioner.Hoare le src =
      (1, 1, (hoare_partitioning le src).2) := by
  obtain ⟨d1, d2, d3, d4⟩ := hoare_spec htot htrans src
  refine ⟨d1, d4, ?_⟩
  have hrun : partitionerRun Partitioner.Hoare le src =
      ((hoare_partitioning le src).1 + 1, (hoare_partitioning le src).1 + 1,
        (hoare_partitioning le src).2) := rfl
  rw [hrun, d1]

/-- Witness for C9 at a concrete input. -/
theorem C9_hoare_returns_zero_witness :
    (hoare_partitioning intLe [3, 1, 2]).1 = 0 ∧
    (∀ i, i < 3 →
      intLe (nthD (hoare_partitioning intLe [3, 1, 2]).2 0)
        (nthD (hoare_partitioning intLe [3, 1, 2]).2 i) = true) ∧
    partitionerRun Partitioner.Hoare intLe [3, 1, 2] =
      (1, 1, (hoare_partitioning intLe [3, 1, 2]).2) :=
  C9_hoare_returns_zero intLe intLe_total intLe_trans [3, 1, 2] (by decide)

/-- C2 (code bug evidence): the implemented `hoare_partitioning` reads the
pivot through the tracked index 0 and never advances its left cursor, so on
`[3, 1, 2]` it returns split 0 with the slice rearranged to `[1, 2, 3]`,
whereas the value-based partitioning the spec describes returns split 1
with the slice `[2, 1, 3]`. -/
theorem C2_hoare_index_tracked_diverges_from_spec :
    hoare_partitioning intLe [3, 1, 2] = (0, [1, 2, 3]) ∧
    hoare_partitioning_spec intLe [3, 1, 2] = (1, [2, 1, 3]) ∧
    hoare_partitioning intLe [3, 1, 2] ≠ hoare_partitioning_spec intLe [3, 1, 2] := by
  refine ⟨by decide, by decide, by decide⟩

/-- Key-only comparison on elements carrying an integer sort key plus a
`Nat` payload: the `PartialOrd` instance the stability claim considers. -/
def pairLe (a b : Int × Nat) : Bool := intLe a.1 b.1

theorem pairLe_total : LeTotal pairLe := by
  intro a b
  simp [pairLe, intLe]
  omega

theorem pairLe_trans : LeTrans pairLe := by
  intro a b c
  simp [pairLe, intLe]
  omega

/-- C7: `merge_sort` is stable: elements compared by key only keep equal-key
groups in their original relative order, because the merge step prefers the
left sub-range on equal comparison.  Stated as: filtering any one key class
commutes with sorting. -/
theorem C7_merge_sort_stable (l : List (Int × Nat)) (k : Int) :
    (merge_sort pairLe l).filter (fun x => decide (x.1 = k)) =
      l.filter (fun x => decide (x.1 = k)) := by
  refine mergeSortGo_filter pairLe_total pairLe_trans ?_ l.length l (le_refl _)
  intro a b ha hb
  simp only [decide_eq_true_eq] at ha hb
  simp [pairLe, intLe, ha, hb]

/-! ## Count sort (src/count_sort.rs)

Elements are embedded as `Int` (the tests use `i32`).  `TryInto<usize>`
becomes `tryIntoUsize` (failing exactly on negative values, as for
`i32 -> usize`), and `T::from_usize` for this element type always succeeds
and is `Int.ofNat` (every emitted key is at most the converted maximum,
which came from an element).  Each Rust panic site (the
`expect` on the max conversion, a frequency-table index out of bounds, an
emission write past the end of the slice) is modelled as `none`; `some`
results are panic-free runs. -/

/-- Embedding of `TryInto::<usize>::try_into` for the integer element type. -/
def tryIntoUsize (n : Int) : Option Nat := if 0 ≤ n then some n.toNat else none

/-- Embedding of `src.iter().min().copied()`. -/
def listMin (l : List Int) : Option Int :=
  match l with
  | [] => none
  | x :: xs => some (xs.foldl min x)

/-- Embedding of `src.iter().max().copied()`. -/
def listMax (l : List Int) : Option Int :=
  match l with
  | [] => none
  | x :: xs => some (xs.foldl max x)

/-- Embedding of `keys_count[key] = keys_count[key].or(Some(0)).map(|c| c + 1)`. -/
def bumpKey (kc : List (Option Nat)) (key : Nat) : List (Option Nat) :=
  setAt kc key (some ((nthD kc key).getD 0 + 1))

/-- The counting loop of `count_sort_impl` (src/count_sort.rs lines 77-81):
`none` models the panic of an out-of-range table index. -/
def buildCounts : List Int → List (Option Nat) → Option (List (Option Nat))
  | [], kc => some kc
  | x :: xs, kc =>
    match tryIntoUsize x with
    | none => buildCounts xs kc
    | some key =>
      if key < kc.length then buildCounts xs (bumpKey kc key) else none

/-- The re-emission loop of `count_sort_impl` (lines 83-95): ascending over
the table, emit `count` copies of `from_usize(key)`. -/
def emitFrom : List (Option Nat) → Nat → List Int
  | [], _ => []
  | o :: rest, k => List.replicate (o.getD 0) (Int.ofNat k) ++ emitFrom rest (k + 1)

/-- Embedding of `count_sort_impl` (src/count_sort.rs lines 71-96).  The
emitted keys overwrite `src` from position 0 on; writing past the end
(emission longer than the slice) would panic and is modelled as `none`. -/
def count_sort_impl (src : List Int) (max_element : Int) : Option (List Int) := do
  let maxU ← tryIntoUsize max_element
  let kc ← buildCounts src (List.replicate (maxU + 1) none)
  let out := emitFrom kc 0
  if out.length ≤ src.length then some (out ++ src.drop out.length) else none

/-- Embedding of `count_sort` (src/count_sort.rs lines 26-33): if the
minimum converts to `usize` and the length exceeds 1, run the
implementation, otherwise leave the slice untouched.  The `expect` on
`max_element` cannot fail then (a converting minimum implies a non-empty
slice); `none` models a panic. -/
def count_sort (src : List Int) : Option (List Int) :=
  let min_element := (listMin src).bind tryIntoUsize
  if min_element.isSome && decide (1 < src.length) then
    match listMax src with
    | some m => count_sort_impl src m
    | none => none
  else some src

/-- Embedding of the caller-visible return value of `count_sort`: the Rust
signature is `pub fn count_sort<T: ...>(src: &mut [T])`, returning unit. -/
def count_sort_ret (_src : List Int) : Unit := ()

theorem foldl_min_le (ys : List Int) :
    ∀ a : Int, ys.foldl min a ≤ a ∧ ∀ z ∈ ys, ys.foldl min a ≤ z := by
  induction ys with
  | nil => intro a; simp
  | cons b bs ih =>
    intro a
    refine ⟨?_, ?_⟩
    · exact le_trans (ih (min a b)).1 (by simp)
    · intro z hz
      rcases (by simpa using hz : z = b ∨ z ∈ bs) with rfl | hz2
      · exact le_trans (ih (min a z)).1 (by simp)
      · exact (ih (min a b)).2 z hz2

theorem le_foldl_max (ys : List Int) :
    ∀ a : Int, a ≤ ys.foldl max a ∧ ∀ z ∈ ys, z ≤ ys.foldl max a := by
  induction ys with
  | nil => intro a; simp
  | cons b bs ih =>
    intro a
    refine ⟨?_, ?_⟩
    · exact le_trans (by simp) (ih (max a b)).1
    · intro z hz
      rcases (by simpa using hz : z = b ∨ z ∈ bs) with rfl | hz2
      · exact le_trans (by simp) (ih (max a z)).1
      · exact (ih (max a b)).2 z hz2

theorem listMin_le {l : List Int} {m x : Int} (hm : listMin l = some m) (hx : x ∈ l) :
    m ≤ x := by
  match l with
  | [] => simp at hx
  | y :: ys =>
    simp only [listMin, Option.some_inj] at hm
    subst hm
    rcases (by simpa using hx : x = y ∨ x ∈ ys) with rfl | hx2
    · exact (foldl_min_le ys x).1
    · exact (foldl_min_le ys y).2 x hx2

theorem le_listMax {l : List Int} {m x : Int} (hm : listMax l = some m) (hx : x ∈ l) :
    x ≤ m := by
  match l with
  | [] => simp at hx
  | y :: ys =>
    simp only [listMax, Option.some_inj] at hm
    subst hm
    rcases (by simpa using hx : x = y ∨ x ∈ ys) with rfl | hx2
    · exact (le_foldl_max ys x).1
    · exact (le_foldl_max ys y).2 x hx2

/-- Total number of counted keys in a frequency table. -/
def sumCounts (kc : List (Option Nat)) : Nat :=
  kc.foldr (fun o acc => o.getD 0 + acc) 0

theorem length_emitFrom : ∀ (kc : List (Option Nat)) (k : Nat),
    (emitFrom kc k).length = sumCounts kc := by
  intro kc
  induction kc with
  | nil => intro k; rfl
  | cons o rest ih =>
    intro k
    simp only [emitFrom, List.length_append, List.length_replicate, ih (k + 1)]
    rfl

theorem sumCounts_replicate_none (n : Nat) :
    sumCounts (List.replicate n none) = 0 := by
  induction n with
  | zero => rfl
  | succ m ih => simpa [sumCounts, List.replicate_succ] using ih

theorem sumCounts_setAt : ∀ (kc : List (Option Nat)) (key : Nat) (v : Option Nat),
    key < kc.length →
    sumCounts (setAt kc key v) + (nthD kc key).getD 0 = sumCounts kc + v.getD 0 := by
  intro kc
  induction kc with
  | nil => intro key v h; simp at h
  | cons o rest ih =>
    intro key v h
    cases key with
    | zero =>
      show sumCounts (v :: rest) + o.getD 0 = sumCounts (o :: rest) + v.getD 0
      simp [sumCounts]
      omega
    | succ m =>
      have := ih m v (by simpa using h)
      show sumCounts (o :: setAt rest m v) + (nthD rest m).getD 0 =
        sumCounts (o :: rest) + v.getD 0
      simp only [sumCounts, List.foldr_cons] at this ⊢
      omega

theorem sumCounts_bumpKey (kc : List (Option Nat)) (key : Nat) (h : key < kc.length) :
    sumCounts (bumpKey kc key) = sumCounts kc + 1 := by
  have hs := sumCounts_setAt kc key (some ((nthD kc key).getD 0 + 1)) h
  simp only [Option.getD_some] at hs
  show sumCounts (setAt kc key (some ((nthD kc key).getD 0 + 1))) = sumCounts kc + 1
  omega

theorem buildCounts_spec : ∀ (xs : List Int) (kc : List (Option Nat)),
    (∀ x ∈ xs, 0 ≤ x ∧ x.toNat < kc.length) →
    ∃ kc2, buildCounts xs kc = some kc2 ∧ kc2.length = kc.length ∧
      sumCounts kc2 = sumCounts kc + xs.length := by
  intro xs
  induction xs with
  | nil => intro kc _; exact ⟨kc, rfl, rfl, by simp⟩
  | cons x rest ih =>
    intro kc hall
    obtain ⟨hx0, hxlt⟩ := hall x (by simp)
    have hconv : tryIntoUsize x = some x.toNat := by
      simp [tryIntoUsize, hx0]
    rw [buildCounts, hconv]
    show ∃ kc2, (if x.toNat < kc.length then buildCounts rest (bumpKey kc x.toNat)
      else none) = some kc2 ∧ kc2.length = kc.length ∧
      sumCounts kc2 = sumCounts kc + (x :: rest).length
    rw [if_pos hxlt]
    obtain ⟨kc2, h1, h2, h3⟩ := ih (bumpKey kc x.toNat) (by
      intro z hz
      obtain ⟨hz0, hzlt⟩ := hall z (by simp [hz])
      refine ⟨hz0, ?_⟩
      simpa [bumpKey] using hzlt)
    refine ⟨kc2, h1, by simpa [bumpKey] using h2, ?_⟩
    rw [h3, sumCounts_bumpKey kc x.toNat hxlt]
    simp
    omega

theorem nonneg_foldl_min (ys : List Int) :
    ∀ a : Int, 0 ≤ a → (∀ z ∈ ys, 0 ≤ z) → 0 ≤ ys.foldl min a := by
  induction ys with
  | nil => intro a ha _; simpa using ha
  | cons b bs ih =>
    intro a ha hall
    refine ih (min a b) ?_ (fun z hz => hall z (by simp [hz]))
    have := hall b (by simp)
    omega

/-- C10: on every applicable input (length at least 2, every element's key
representable, with the `Int -> Nat` key conversion monotone by
construction), `count_sort` completes without a panic: the max conversion
succeeds, every frequency-table access is in bounds, and the re-emission
writes exactly `src.length` elements, all in bounds (`some` results are
exactly the panic-free runs; `T::from_usize` is total for this element
type).  The output also keeps the input's length. -/
theorem C10_count_sort_applicable_no_panic (src : List Int)
    (hlen : 2 ≤ src.length) (hpos : ∀ x ∈ src, 0 ≤ x) :
    ∃ out, count_sort src = some out ∧ out.length = src.length := by
  match src, hlen with
  | y :: ys, hlen =>
    set src := y :: ys with hsrc
    have hy0 : 0 ≤ y := hpos y (by simp [hsrc])
    have hmin : listMin src = some (ys.foldl min y) := rfl
    have hmin0 : 0 ≤ ys.foldl min y :=
      nonneg_foldl_min ys y hy0 (fun z hz => hpos z (by simp [hsrc, hz]))
    have hminconv : tryIntoUsize (ys.foldl min y) = some (ys.foldl min y).toNat := by
      simp [tryIntoUsize, hmin0]
    have hmax : listMax src = some (ys.foldl max y) := rfl
    set M := ys.foldl max y with hM
    have hM0 : 0 ≤ M := le_trans hy0 (le_listMax hmax (by simp [hsrc]))
    have hcond : (((listMin src).bind tryIntoUsize).isSome &&
        decide (1 < src.length)) = true := by
      rw [hmin]
      show ((tryIntoUsize (List.foldl min y ys)).isSome && decide (1 < src.length)) = true
      rw [hminconv]
      have hys : 2 ≤ ys.length + 1 := by simpa [hsrc] using hlen
      simp [hsrc]
      omega
    have hmaxconv : tryIntoUsize M = some M.toNat := by
      simp [tryIntoUsize, hM0]
    have himpl : count_sort_impl src M = (tryIntoUsize M).bind (fun maxU =>
        (buildCounts src (List.replicate (maxU + 1) none)).bind (fun kc =>
          if (emitFrom kc 0).length ≤ src.length then
            some (emitFrom kc 0 ++ src.drop (emitFrom kc 0).length) else none)) := rfl
    have hcs : count_sort src = count_sort_impl src M := by
      show (if (((listMin src).bind tryIntoUsize).isSome && decide (1 < src.length)) = true
        then match listMax src with
          | some m => count_sort_impl src m
          | none => none
        else some src) = count_sort_impl src M
      rw [if_pos hcond, hmax]
    obtain ⟨kc2, h1, h2, h3⟩ := buildCounts_spec src (List.replicate (M.toNat + 1) none) (by
      intro x hx
      refine ⟨hpos x hx, ?_⟩
      have hxM : x ≤ M := le_listMax hmax hx
      have := Int.toNat_le_toNat hxM
      simp
      omega)
    have hout : (emitFrom kc2 0).length = src.length := by
      rw [length_emitFrom, h3, sumCounts_replicate_none]
      omega
    have himpl2 : count_sort_impl src M =
        if (emitFrom kc2 0).length ≤ src.length then
          some (emitFrom kc2 0 ++ src.drop (emitFrom kc2 0).length) else none := by
      rw [himpl, hmaxconv]
      show (buildCounts src (List.replicate (M.toNat + 1) none)).bind (fun kc =>
        if (emitFrom kc 0).length ≤ src.length then
          some (emitFrom kc 0 ++ src.drop (emitFrom kc 0).length) else none) = _
      rw [h1]
      rfl
    refine ⟨emitFrom kc2 0 ++ src.drop (emitFrom kc2 0).length, ?_, ?_⟩
    · rw [hcs, himpl2, if_pos (le_of_eq hout)]
    · simp only [List.length_append, List.length_drop, hout]
      omega

/-- Witness for C10 at a concrete input. -/
theorem C10_count_sort_applicable_no_panic_witness :
    ∃ out, count_sort [3, 1, 2] = some out ∧ out.length = 3 :=
  C10_count_sort_applicable_no_panic [3, 1, 2] (by decide) (by decide)

/-- C5: an input containing an element whose key cannot be represented (for
the integer element type: a negative element) makes `count_sort` return
with the slice completely unmodified — no partial mutation. -/
theorem C5_count_sort_inapplicable_unmodified (src : List Int) (x : Int)
    (hx : x ∈ src) (hconv : tryIntoUsize x = none) :
    count_sort src = some src := by
  have hxneg : x < 0 := by
    by_contra hge
    simp [tryIntoUsize, (by omega : (0 : Int) ≤ x)] at hconv
  match src, hx with
  | y :: ys, hx =>
    have hmin : listMin (y :: ys) = some (ys.foldl min y) := rfl
    have hminx : ys.foldl min y ≤ x := listMin_le hmin hx
    have hminneg : ys.foldl min y < 0 := by omega
    rw [count_sort, hmin]
    rw [if_neg (by
      simp [tryIntoUsize]
      omega)]

/-- Witness for C5 at a concrete input. -/
theorem C5_count_sort_inapplicable_unmodified_witness :
    count_sort [-1, 5] = some [-1, 5] :=
  C5_count_sort_inapplicable_unmodified [-1, 5] (-1) (by decide) (by decide)

/-- C6 (counterexample): `count_sort` returns unit, so its return value is
identical on an applicable input (`[1, 0]`, which it sorts in place) and an
inapplicable one (`[-1, 0]`, which it leaves unmodified): the return value
does not distinguish the two cases. -/
theorem C6_count_sort_returns_no_outcome :
    count_sort_ret [1, 0] = count_sort_ret [-1, 0] ∧
    count_sort [1, 0] = some [0, 1] ∧
    count_sort [-1, 0] = some [-1, 0] := by
  refine ⟨rfl, by decide, by decide⟩

/-- C6 (amended): `count_sort` returns no applicability outcome (its return
type is unit, constant across all inputs); the two cases are caller-visible
only through the slice itself — applicable inputs are sorted in place,
inapplicable inputs are left unmodified. -/
theorem C6_count_sort_outcome_only_via_slice :
    (∀ src : List Int, count_sort_ret src = ()) ∧
    count_sort [1, 0] = some [0, 1] ∧
    count_sort [-1, 0] = some [-1, 0] := by
  refine ⟨fun _ => rfl, by decide, by decide⟩

/-! ## Maximum subarray (src/max_subarray.rs)

Elements are embedded as `Int` (the claims quantify over integer
sequences; `T::default()` is 0).  Returned sub-slices `&src[l..r]` are
represented by their index range `(l, r)`.  The divide-and-conquer method
recurses without a base case for the empty slice, so it is embedded with
fuel: `none` models the unbounded recursion (stack overflow) the Rust
code performs on an empty input. -/

/-- The scan loop of `find_max_sum_subarray_kadane` (src/max_subarray.rs
lines 19-30); state: `(max_sum, cur_sum, left, right, cur_left)`, returning
`(max_sum, left, right)`. -/
def kadaneGo : List Int → Nat → Int → Int → Option Nat → Option Nat → Nat →
    Int × Option Nat × Option Nat
  | [], _, maxSum, _, left, right, _ => (maxSum, left, right)
  | x :: xs, i, maxSum, curSum, left, right, curLeft =>
    let cur2 := curSum + x
    if maxSum ≤ cur2 then kadaneGo xs (i + 1) cur2 cur2 (some curLeft) (some i) curLeft
    else if cur2 < 0 then kadaneGo xs (i + 1) maxSum 0 left right (i + 1)
    else kadaneGo xs (i + 1) maxSum cur2 left right curLeft

/-- Embedding of `find_max_sum_subarray_kadane` (src/max_subarray.rs lines
12-37).  The arm with exactly one cursor set would panic in Rust (an
`expect`); it is unreachable and folded into the `(None, 0)` return. -/
def find_max_sum_subarray_kadane (src : List Int) : Option (Nat × Nat) × Int :=
  match kadaneGo src 0 0 0 none none 0 with
  | (m, some l, some r) => (some (l, r + 1), m)
  | (_, _, _) => (none, 0)

/-- The leftward scan of `find_max_sum_cross_subarray` (lines 80-86):
iterates `i` from `mid - 1` down to 0. -/
def crossLeft (src : List Int) : Nat → Int → Int → Option Nat → Int × Option Nat
  | 0, _, best, left => (best, left)
  | i + 1, cur, best, left =>
    let cur2 := cur + nthD src i
    if best ≤ cur2 then crossLeft src i cur2 cur2 (some i)
    else crossLeft src i cur2 best left

/-- The rightward scan of `find_max_sum_cross_subarray` (lines 88-96):
walks the elements of `src[mid..]`, with `j` tracking the absolute index. -/
def crossRightGo : List Int → Nat → Int → Int → Option Nat → Int × Option Nat
  | [], _, _, best, right => (best, right)
  | x :: xs, j, cur, best, right =>
    let cur2 := cur + x
    if best ≤ cur2 then crossRightGo xs (j + 1) cur2 cur2 (some j)
    else crossRightGo xs (j + 1) cur2 best right

/-- Embedding of `find_max_sum_cross_subarray` (src/max_subarray.rs lines
74-104). -/
def find_max_sum_cross_subarray (src : List Int) (mid : Nat) :
    Option (Nat × Nat) × Int :=
  let lres := crossLeft src mid 0 0 none
  let rres := crossRightGo (src.drop mid) mid 0 0 none
  if lres.2.isNone && rres.2.isNone then (none, 0)
  else (some (lres.2.getD mid, (rres.2.map (fun i => i + 1)).getD mid),
    lres.1 + rres.1)

/-- Embedding of `Ord::cmp` on the integer element type. -/
def intCompare (a b : Int) : Ordering :=
  if a < b then Ordering.lt else if a = b then Ordering.eq else Ordering.gt

/-- Embedding of `Ord::cmp` on `Option<usize>` (`None` is least). -/
def optNatCompare (a b : Option Nat) : Ordering :=
  match a, b with
  | none, none => Ordering.eq
  | none, some _ => Ordering.lt
  | some _, none => Ordering.gt
  | some x, some y =>
    if x < y then Ordering.lt else if x = y then Ordering.eq else Ordering.gt

/-- The length of a candidate sub-slice, `x.map(|a| a.len())`. -/
def candLen (c : Option (Nat × Nat) × Int) : Option Nat :=
  c.1.map (fun r => r.2 - r.1)

/-- The comparator of the `max_by` in `find_max_sum_subarray_dc` (lines
62-69): compare sums, then sub-slice lengths. -/
def cmpCand (x y : Option (Nat × Nat) × Int) : Ordering :=
  (intCompare x.2 y.2).then (optNatCompare (candLen x) (candLen y))

/-- One step of `Iterator::max_by`, which keeps the later element unless
the earlier compares strictly greater. -/
def maxByCand (a b : Option (Nat × Nat) × Int) : Option (Nat × Nat) × Int :=
  if cmpCand a b = Ordering.gt then a else b

/-- Embedding of `find_max_sum_subarray_dc` (src/max_subarray.rs lines
48-72) with fuel bounding the recursion depth; `none` is the unbounded
recursion on ranges that never reach the single-element base case (the
empty slice).  The sub-range of the right recursive call is shifted by
`mid`, as the Rust slices are views into the same backing array. -/
def find_max_sum_subarray_dc : Nat → List Int → Option (Option (Nat × Nat) × Int)
  | 0, _ => none
  | fuel + 1, src =>
    if src.length = 1 then
      if 0 ≤ nthD src 0 then some (some (0, 1), nthD src 0) else some (none, 0)
    else
      let mid := src.length / 2
      match find_max_sum_subarray_dc fuel (src.take mid),
          find_max_sum_subarray_dc fuel (src.drop mid) with
      | some lres, some rres =>
        let rres2 : Option (Nat × Nat) × Int :=
          (rres.1.map (fun ab => (ab.1 + mid, ab.2 + mid)), rres.2)
        let cres := find_max_sum_cross_subarray src mid
        some (maxByCand (maxByCand lres rres2) cres)
      | _, _ => none

/-- The sub-slice denoted by a returned index range. -/
def sliceOfRange (src : List Int) (r : Option (Nat × Nat)) : Option (List Int) :=
  r.map (fun ab => (src.drop ab.1).take (ab.2 - ab.1))

/-! Reference quantities for the maximum-subarray proofs: the best sum of a
prefix run, of a suffix run, and over all contiguous runs (the empty run,
of sum 0, always counts). -/

/-- Best sum of a (possibly empty) prefix run. -/
def maxPrefRun : List Int → Int
  | [] => 0
  | x :: xs => max 0 (x + maxPrefRun xs)

/-- Best sum of a (possibly empty) suffix run. -/
def maxSuffRun : List Int → Int
  | [] => 0
  | x :: xs => max (maxSuffRun xs) (x + xs.sum)

/-- Best sum over all contiguous runs (the mathematical maximum-subarray
sum, empty run allowed). -/
def bestSum : List Int → Int
  | [] => 0
  | x :: xs => max (max 0 (x + maxPrefRun xs)) (bestSum xs)

theorem maxPrefRun_nonneg (l : List Int) : 0 ≤ maxPrefRun l := by
  cases l <;> simp [maxPrefRun]

theorem maxSuffRun_nonneg (l : List Int) : 0 ≤ maxSuffRun l := by
  induction l with
  | nil => simp [maxSuffRun]
  | cons x xs ih => simp [maxSuffRun]; omega

theorem bestSum_ge_pref (l : List Int) : maxPrefRun l ≤ bestSum l := by
  cases l with
  | nil => simp [maxPrefRun, bestSum]
  | cons x xs =>
    show max 0 (x + maxPrefRun xs) ≤ max (max 0 (x + maxPrefRun xs)) (bestSum xs)
    omega

theorem bestSum_nonneg (l : List Int) : 0 ≤ bestSum l :=
  le_trans (maxPrefRun_nonneg l) (bestSum_ge_pref l)

theorem sum_le_pref (l : List Int) : l.sum ≤ maxPrefRun l := by
  induction l with
  | nil => simp [maxPrefRun]
  | cons x xs ih => simp [maxPrefRun]; omega

theorem bestSum_ge_suff (l : List Int) : maxSuffRun l ≤ bestSum l := by
  induction l with
  | nil => simp [maxSuffRun, bestSum]
  | cons x xs ih =>
    have h1 := sum_le_pref xs
    show max (maxSuffRun xs) (x + xs.sum) ≤ max (max 0 (x + maxPrefRun xs)) (bestSum xs)
    omega

theorem maxPrefRun_append (a b : List Int) :
    maxPrefRun (a ++ b) = max (maxPrefRun a) (a.sum + maxPrefRun b) := by
  induction a with
  | nil =>
    have := maxPrefRun_nonneg b
    simp [maxPrefRun]
    omega
  | cons x xs ih =>
    show max 0 (x + maxPrefRun (xs ++ b)) =
      max (max 0 (x + maxPrefRun xs)) ((x + xs.sum) + maxPrefRun b)
    rw [ih]
    omega

theorem bestSum_append (a b : List Int) :
    bestSum (a ++ b) =
      max (bestSum a) (max (bestSum b) (maxSuffRun a + maxPrefRun b)) := by
  induction a with
  | nil =>
    have h1 := bestSum_ge_pref b
    have h2 := maxPrefRun_nonneg b
    have h3 := bestSum_nonneg b
    simp [bestSum, maxSuffRun]
    omega
  | cons x xs ih =>
    have h1 := maxPrefRun_nonneg xs
    have h2 := maxPrefRun_nonneg b
    have h3 := bestSum_ge_pref xs
    have h4 := bestSum_ge_suff xs
    have h5 := sum_le_pref xs
    have h6 := bestSum_nonneg b
    show max (max 0 (x + maxPrefRun (xs ++ b))) (bestSum (xs ++ b)) =
      max (max (max 0 (x + maxPrefRun xs)) (bestSum xs))
        (max (bestSum b) (max (maxSuffRun xs) (x + xs.sum) + maxPrefRun b))
    rw [ih, maxPrefRun_append]
    omega

/-- The Kadane scan computes the maximum-subarray sum: with running state
`0 <= curSum <= maxSum`, the final best is the old best, the best run inside
the rest, or the current run extended into the rest. -/
theorem kadaneGo_fst : ∀ (xs : List Int) (i : Nat) (ms cs : Int)
    (l r : Option Nat) (cl : Nat), 0 ≤ cs → cs ≤ ms →
    (kadaneGo xs i ms cs l r cl).1 = max ms (max (bestSum xs) (cs + maxPrefRun xs)) := by
  intro xs
  induction xs with
  | nil =>
    intro i ms cs l r cl h0 h1
    show ms = max ms (max (bestSum []) (cs + maxPrefRun []))
    simp [bestSum, maxPrefRun]
    omega
  | cons x xs ih =>
    intro i ms cs l r cl h0 h1
    have hp := maxPrefRun_nonneg xs
    have hbp := bestSum_ge_pref xs
    have hbn := bestSum_nonneg xs
    rw [kadaneGo]
    by_cases hb1 : ms ≤ cs + x
    · rw [if_pos hb1]
      rw [ih (i + 1) (cs + x) (cs + x) (some cl) (some i) cl (by omega) (le_refl _)]
      show _ = max ms (max (max (max 0 (x + maxPrefRun xs)) (bestSum xs))
        (cs + max 0 (x + maxPrefRun xs)))
      omega
    · rw [if_neg hb1]
      by_cases hb2 : cs + x < 0
      · rw [if_pos hb2]
        rw [ih (i + 1) ms 0 l r (i + 1) (le_refl _) (by omega)]
        show _ = max ms (max (max (max 0 (x + maxPrefRun xs)) (bestSum xs))
          (cs + max 0 (x + maxPrefRun xs)))
        omega
      · rw [if_neg hb2]
        rw [ih (i + 1) ms (cs + x) l r cl (by omega) (by omega)]
        show _ = max ms (max (max (max 0 (x + maxPrefRun xs)) (bestSum xs))
          (cs + max 0 (x + maxPrefRun xs)))
        omega

/-- If the scan never records a best run (right cursor still unset), the
best sum never changed. -/
theorem kadaneGo_right_none : ∀ (xs : List Int) (i : Nat) (ms cs : Int)
    (l r : Option Nat) (cl : Nat),
    (kadaneGo xs i ms cs l r cl).2.2 = none →
    (kadaneGo xs i ms cs l r cl).1 = ms ∧ r = none := by
  intro xs
  induction xs with
  | nil => intro i ms cs l r cl h; exact ⟨rfl, h⟩
  | cons x xs ih =>
    intro i ms cs l r cl h
    rw [kadaneGo] at h ⊢
    by_cases hb1 : ms ≤ cs + x
    · rw [if_pos hb1] at h ⊢
      obtain ⟨h1, h2⟩ := ih (i + 1) (cs + x) (cs + x) (some cl) (some i) cl h
      exact absurd h2 (by simp)
    · rw [if_neg hb1] at h ⊢
      by_cases hb2 : cs + x < 0
      · rw [if_pos hb2] at h ⊢
        exact ih (i + 1) ms 0 l r (i + 1) h
      · rw [if_neg hb2] at h ⊢
        exact ih (i + 1) ms (cs + x) l r cl h

/-- The two cursors of the Kadane scan are set together. -/
theorem kadaneGo_none_iff : ∀ (xs : List Int) (i : Nat) (ms cs : Int)
    (l r : Option Nat) (cl : Nat), (l = none ↔ r = none) →
    ((kadaneGo xs i ms cs l r cl).2.1 = none ↔ (kadaneGo xs i ms cs l r cl).2.2 = none) := by
  intro xs
  induction xs with
  | nil => intro i ms cs l r cl h; exact h
  | cons x xs ih =>
    intro i ms cs l r cl h
    rw [kadaneGo]
    by_cases hb1 : ms ≤ cs + x
    · rw [if_pos hb1]
      exact ih (i + 1) (cs + x) (cs + x) (some cl) (some i) cl (by simp)
    · rw [if_neg hb1]
      by_cases hb2 : cs + x < 0
      · rw [if_pos hb2]
        exact ih (i + 1) ms 0 l r (i + 1) h
      · rw [if_neg hb2]
        exact ih (i + 1) ms (cs + x) l r cl h

/-- The linear method returns exactly the maximum-subarray sum. -/
theorem kadane_snd_eq_bestSum (src : List Int) :
    (find_max_sum_subarray_kadane src).2 = bestSum src := by
  have hfst := kadaneGo_fst src 0 0 0 none none 0 (le_refl _) (le_refl _)
  have hbp := bestSum_ge_pref src
  have hbn := bestSum_nonneg src
  have hp := maxPrefRun_nonneg src
  have hm : (kadaneGo src 0 0 0 none none 0).1 = bestSum src := by
    rw [hfst]
    omega
  rw [find_max_sum_subarray_kadane]
  rcases heq : kadaneGo src 0 0 0 none none 0 with ⟨m, lopt, ropt⟩
  have hm2 : m = bestSum src := by rw [← hm, heq]
  cases lopt with
  | none =>
    cases ropt with
    | none =>
      obtain ⟨h1, _⟩ := kadaneGo_right_none src 0 0 0 none none 0 (by rw [heq])
      rw [heq] at h1
      simpa using hm2 ▸ h1.symm
    | some r0 =>
      have := kadaneGo_none_iff src 0 0 0 none none 0 (by simp)
      rw [heq] at this
      simp at this
  | some l0 =>
    cases ropt with
    | none =>
      obtain ⟨h1, _⟩ := kadaneGo_right_none src 0 0 0 none none 0 (by rw [heq])
      rw [heq] at h1
      simpa using hm2 ▸ h1.symm
    | some r0 =>
      simpa using hm2

/-- Best suffix-run sum of the first `i` elements, defined by downward
recursion on the index, matching the leftward cross scan. -/
def suffMax (src : List Int) : Nat → Int
  | 0 => 0
  | i + 1 => max 0 (nthD src i + suffMax src i)

theorem suffMax_nonneg (src : List Int) (i : Nat) : 0 ≤ suffMax src i := by
  cases i <;> simp [suffMax]

theorem maxSuffRun_append_singleton (l : List Int) (x : Int) :
    maxSuffRun (l ++ [x]) = max 0 (x + maxSuffRun l) := by
  induction l with
  | nil =>
    show max (maxSuffRun []) (x + List.sum []) = max 0 (x + maxSuffRun [])
    simp [maxSuffRun]
  | cons y l ih =>
    show max (maxSuffRun (l ++ [x])) (y + (l ++ [x]).sum) =
      max 0 (x + max (maxSuffRun l) (y + l.sum))
    rw [ih, List.sum_append]
    simp only [List.sum_cons, List.sum_nil]
    omega

theorem suffMax_eq_take (src : List Int) :
    ∀ i, i ≤ src.length → suffMax src i = maxSuffRun (src.take i) := by
  intro i
  induction i with
  | zero => intro _; rfl
  | succ n ih =>
    intro h
    rw [take_succ_nthD src n (by omega), maxSuffRun_append_singleton,
      ← ih (by omega)]
    rfl

theorem crossLeft_fst (src : List Int) :
    ∀ (i : Nat) (cur best : Int) (l : Option Nat), cur ≤ best →
      (crossLeft src i cur best l).1 = max best (cur + suffMax src i) := by
  intro i
  induction i with
  | zero =>
    intro cur best l h
    show best = max best (cur + 0)
    omega
  | succ n ih =>
    intro cur best l h
    have hs := suffMax_nonneg src n
    rw [crossLeft]
    by_cases hb : best ≤ cur + nthD src n
    · rw [if_pos hb]
      rw [ih (cur + nthD src n) (cur + nthD src n) (some n) (le_refl _)]
      show _ = max best (cur + max 0 (nthD src n + suffMax src n))
      omega
    · rw [if_neg hb]
      rw [ih (cur + nthD src n) best l (by omega)]
      show _ = max best (cur + max 0 (nthD src n + suffMax src n))
      omega

theorem crossLeft_some (src : List Int) :
    ∀ (i : Nat) (cur best : Int) (k : Nat),
      ∃ k2, (crossLeft src i cur best (some k)).2 = some k2 := by
  intro i
  induction i with
  | zero => intro cur best k; exact ⟨k, rfl⟩
  | succ n ih =>
    intro cur best k
    rw [crossLeft]
    by_cases hb : best ≤ cur + nthD src n
    · rw [if_pos hb]; exact ih _ _ n
    · rw [if_neg hb]; exact ih _ _ k

theorem crossLeft_none (src : List Int) :
    ∀ (i : Nat) (cur best : Int),
      (crossLeft src i cur best none).2 = none →
      (crossLeft src i cur best none).1 = best := by
  intro i
  induction i with
  | zero => intro cur best _; rfl
  | succ n ih =>
    intro cur best h
    rw [crossLeft] at h ⊢
    by_cases hb : best ≤ cur + nthD src n
    · rw [if_pos hb] at h ⊢
      obtain ⟨k2, hk2⟩ := crossLeft_some src n (cur + nthD src n) (cur + nthD src n) n
      rw [hk2] at h
      simp at h
    · rw [if_neg hb] at h ⊢
      exact ih _ _ h

theorem crossRightGo_fst :
    ∀ (l : List Int) (j : Nat) (cur best : Int) (r : Option Nat), cur ≤ best →
      (crossRightGo l j cur best r).1 = max best (cur + maxPrefRun l) := by
  intro l
  induction l with
  | nil =>
    intro j cur best r h
    show best = max best (cur + 0)
    omega
  | cons x xs ih =>
    intro j cur best r h
    have hp := maxPrefRun_nonneg xs
    rw [crossRightGo]
    by_cases hb : best ≤ cur + x
    · rw [if_pos hb]
      rw [ih (j + 1) (cur + x) (cur + x) (some j) (le_refl _)]
      show _ = max best (cur + max 0 (x + maxPrefRun xs))
      omega
    · rw [if_neg hb]
      rw [ih (j + 1) (cur + x) best r (by omega)]
      show _ = max best (cur + max 0 (x + maxPrefRun xs))
      omega

theorem crossRightGo_some :
    ∀ (l : List Int) (j : Nat) (cur best : Int) (k : Nat),
      ∃ k2, (crossRightGo l j cur best (some k)).2 = some k2 := by
  intro l
  induction l with
  | nil => intro j cur best k; exact ⟨k, rfl⟩
  | cons x xs ih =>
    intro j cur best k
    rw [crossRightGo]
    by_cases hb : best ≤ cur + x
    · rw [if_pos hb]; exact ih _ _ _ j
    · rw [if_neg hb]; exact ih _ _ _ k

theorem crossRightGo_none :
    ∀ (l : List Int) (j : Nat) (cur best : Int),
      (crossRightGo l j cur best none).2 = none →
      (crossRightGo l j cur best none).1 = best := by
  intro l
  induction l with
  | nil => intro j cur best _; rfl
  | cons x xs ih =>
    intro j cur best h
    rw [crossRightGo] at h ⊢
    by_cases hb : best ≤ cur + x
    · rw [if_pos hb] at h ⊢
      obtain ⟨k2, hk2⟩ := crossRightGo_some xs (j + 1) (cur + x) (cur + x) j
      rw [hk2] at h
      simp at h
    · rw [if_neg hb] at h ⊢
      exact ih _ _ _ h

/-- The crossing candidate's sum is the best suffix run of the left half
plus the best prefix run of the right half. -/
theorem cross_snd (src : List Int) (mid : Nat) (h : mid ≤ src.length) :
    (find_max_sum_cross_subarray src mid).2 =
      maxSuffRun (src.take mid) + maxPrefRun (src.drop mid) := by
  have hl1 : (crossLeft src mid 0 0 none).1 = maxSuffRun (src.take mid) := by
    rw [crossLeft_fst src mid 0 0 none (le_refl _), ← suffMax_eq_take src mid h]
    have := suffMax_nonneg src mid
    omega
  have hr1 : (crossRightGo (src.drop mid) mid 0 0 none).1 =
      maxPrefRun (src.drop mid) := by
    rw [crossRightGo_fst (src.drop mid) mid 0 0 none (le_refl _)]
    have := maxPrefRun_nonneg (src.drop mid)
    omega
  rw [find_max_sum_cross_subarray]
  by_cases hnn : ((crossLeft src mid 0 0 none).2.isNone &&
      (crossRightGo (src.drop mid) mid 0 0 none).2.isNone) = true
  · rw [if_pos hnn]
    simp only [Bool.and_eq_true, Option.isNone_iff_eq_none] at hnn
    have hz1 := crossLeft_none src mid 0 0 hnn.1
    have hz2 := crossRightGo_none (src.drop mid) mid 0 0 hnn.2
    show (0 : Int) = _
    rw [← hl1, ← hr1, hz1, hz2]
    omega
  · rw [if_neg hnn]
    show (crossLeft src mid 0 0 none).1 + (crossRightGo (src.drop mid) mid 0 0 none).1 = _
    rw [hl1, hr1]

/-- One `max_by` step picks a candidate achieving the larger sum (the
length tie-break never changes the sum). -/
theorem maxByCand_snd (a b : Option (Nat × Nat) × Int) :
    (maxByCand a b).2 = max a.2 b.2 := by
  rw [maxByCand]
  rcases lt_trichotomy a.2 b.2 with h | h | h
  · have hc : intCompare a.2 b.2 = Ordering.lt := by
      simp [intCompare, h]
    have hcc : cmpCand a b = Ordering.lt := by
      rw [cmpCand, hc]
      rfl
    rw [if_neg (by rw [hcc]; intro hx; exact absurd hx (by decide))]
    omega
  · have hc : intCompare a.2 b.2 = Ordering.eq := by
      simp [intCompare, h]
    by_cases hcc : cmpCand a b = Ordering.gt
    · rw [if_pos hcc]
      omega
    · rw [if_neg hcc]
      omega
  · have hc : intCompare a.2 b.2 = Ordering.gt := by
      have h1 : ¬a.2 < b.2 := by omega
      have h2 : ¬a.2 = b.2 := by omega
      simp [intCompare, h1, h2]
    have hcc : cmpCand a b = Ordering.gt := by
      rw [cmpCand, hc]
      rfl
    rw [if_pos hcc]
    omega

/-- The divide-and-conquer method never returns on the empty slice: the
` len == 1` base case is never reached and the recursion only ever revisits
the empty slice (in Rust, unbounded recursion and a stack overflow). -/
theorem dc_nil : ∀ fuel : Nat, find_max_sum_subarray_dc fuel [] = none := by
  intro fuel
  induction fuel with
  | zero => rfl
  | succ n ih =>
    rw [find_max_sum_subarray_dc]
    rw [if_neg (by simp)]
    show (match find_max_sum_subarray_dc n [], find_max_sum_subarray_dc n [] with
      | some lres, some rres => some (maxByCand (maxByCand lres
          (rres.1.map (fun ab => (ab.1 + 0, ab.2 + 0)), rres.2))
          (find_max_sum_cross_subarray [] 0))
      | _, _ => none) = none
    rw [ih]

/-- With fuel at least the length, the divide-and-conquer method returns on
every non-empty slice, and its sum is the maximum-subarray sum. -/
theorem dc_snd_eq_bestSum : ∀ (fuel : Nat) (src : List Int),
    1 ≤ src.length → src.length ≤ fuel →
    ∃ res, find_max_sum_subarray_dc fuel src = some res ∧ res.2 = bestSum src := by
  intro fuel
  induction fuel with
  | zero => intro src h1 h2; omega
  | succ n ih =>
    intro src h1 h2
    rw [find_max_sum_subarray_dc]
    by_cases hone : src.length = 1
    · rw [if_pos hone]
      obtain ⟨x, rfl⟩ := List.length_eq_one.mp hone
      by_cases hx : 0 ≤ nthD [x] 0
      · rw [if_pos hx]
        refine ⟨(some (0, 1), nthD [x] 0), rfl, ?_⟩
        show nthD [x] 0 = max (max 0 (x + maxPrefRun [])) (bestSum [])
        show x = max (max 0 (x + maxPrefRun [])) (bestSum [])
        have hx0 : (0 : Int) ≤ x := hx
        simp [maxPrefRun, bestSum]
        omega
      · rw [if_neg hx]
        refine ⟨(none, 0), rfl, ?_⟩
        show (0 : Int) = max (max 0 (x + maxPrefRun [])) (bestSum [])
        have hx0 : ¬(0 : Int) ≤ x := hx
        simp [maxPrefRun, bestSum]
        omega
    · rw [if_neg hone]
      have h3 : 2 ≤ src.length := by omega
      set mid := src.length / 2 with hmid
      have hmid1 : 1 ≤ mid := by omega
      have hmid2 : mid < src.length := by omega
      obtain ⟨lres, hl, hl2⟩ := ih (src.take mid) (by simp; omega) (by simp; omega)
      obtain ⟨rres, hr, hr2⟩ := ih (src.drop mid) (by simp; omega) (by simp; omega)
      dsimp only
      rw [hl, hr]
      refine ⟨_, rfl, ?_⟩
      rw [maxByCand_snd, maxByCand_snd]
      show max (max lres.2 rres.2) (find_max_sum_cross_subarray src mid).2 = bestSum src
      rw [hl2, hr2, cross_snd src mid (by omega)]
      conv_rhs => rw [← List.take_append_drop mid src]
      rw [bestSum_append]
      omega

/-- C4 (amended, counterexample side): on the empty sequence the linear
method returns `(None, 0)` but the divide-and-conquer method does not
return at all (here: `none` even with fuel 200, the corpus bound; `dc_nil`
shows exhaustion at every fuel). -/
theorem C4_dc_diverges_on_empty :
    find_max_sum_subarray_dc 200 [] = none ∧
    find_max_sum_subarray_kadane [] = (none, 0) :=
  ⟨dc_nil 200, rfl⟩

/-- C4 (amended): for every integer sequence of length at least 1 (in
particular lengths 1 through 200), both methods return a result and the
sums they return are equal. -/
theorem C4_sums_agree (src : List Int) (h : 1 ≤ src.length) :
    ∃ res, find_max_sum_subarray_dc src.length src = some res ∧
      res.2 = (find_max_sum_subarray_kadane src).2 := by
  obtain ⟨res, h1, h2⟩ := dc_snd_eq_bestSum src.length src h (le_refl _)
  exact ⟨res, h1, by rw [h2, kadane_snd_eq_bestSum]⟩

/-- Witness for C4 at a concrete input. -/
theorem C4_sums_agree_witness :
    ∃ res, find_max_sum_subarray_dc 5 [1, 2, 3, -100, 6] = some res ∧
      res.2 = (find_max_sum_subarray_kadane [1, 2, 3, -100, 6]).2 :=
  C4_sums_agree [1, 2, 3, -100, 6] (by decide)

/-- C8 (counterexample): on `[1, 2, 3, -100, 6]` the linear method does not
return the sub-range `[1, 2, 3]` the claim states. -/
theorem C8_kadane_not_longest :
    sliceOfRange [1, 2, 3, -100, 6]
      (find_max_sum_subarray_kadane [1, 2, 3, -100, 6]).1 ≠ some [1, 2, 3] := by
  decide

/-- C8 (amended): the linear method updates the best on `>=`, so among runs
achieving the maximum sum it reports the one found last (latest end index);
on `[1, 2, 3, -100, 6]` it returns the sub-range `[4, 5)`, i.e. `[6]`, with
sum 6. -/
theorem C8_kadane_favors_latest :
    find_max_sum_subarray_kadane [1, 2, 3, -100, 6] = (some (4, 5), 6) ∧
    sliceOfRange [1, 2, 3, -100, 6]
      (find_max_sum_subarray_kadane [1, 2, 3, -100, 6]).1 = some [6] := by
  refine ⟨by decide, by decide⟩

end ClrsAlgos
